import Mathlib

/-!
Verification of the silva tree-ensemble stability verifier.

This development gives a shallow embedding of the silva source (interval and
hyperrectangle arithmetic, decision trees and forests, the reachable-leaf
engine, the tier adjustment, the binary-heap priority queue, and the
single-tree and forest stability verifiers) and settles the specification
claims against it.

Machine doubles are modelled as exact rationals (`ℚ`): the source computes
lowerbounds rounded down and upperbounds rounded up, so exact arithmetic is
the idealised semantics the specification reasons about; directed rounding
only widens intervals.  The machine constant `EPSILON = 1e-12` is modelled
as the exact rational `1 / 10^12`.
-/

set_option linter.unusedVariables false

namespace Silva

/-! ### Interval domain (interval.h) -/

/-- An interval `⟨l, u⟩`, bottom when `l > u` (interval.h `struct interval`). -/
structure Interval where
  l : ℚ
  u : ℚ
deriving DecidableEq

/-- `interval_is_bottom`: `x.l > x.u`. -/
def interval_is_bottom (x : Interval) : Bool :=
  x.l > x.u

/-- `interval_is_lt`: `x.u < y.l`. -/
def interval_is_lt (x y : Interval) : Bool :=
  x.u < y.l

/-- `interval_midpoint`: `(x.l + x.u) * 0.5`. -/
def interval_midpoint (x : Interval) : ℚ :=
  (x.l + x.u) * (1 / 2)

/-- `interval_radius`: `(x.u - x.l) * 0.5`. -/
def interval_radius (x : Interval) : ℚ :=
  (x.u - x.l) * (1 / 2)

/-- `interval_add`: `⟨x.l + y.l, x.u + y.u⟩`. -/
def interval_add (x y : Interval) : Interval :=
  ⟨x.l + y.l, x.u + y.u⟩

/-- `interval_sub`, exactly as in the source: `r.l = x.l - y.l`,
`r.u = x.u - y.u`. -/
def interval_sub (x y : Interval) : Interval :=
  ⟨x.l - y.l, x.u - y.u⟩

/-- `interval_mul`: the nine sign-pattern cases of the source, with the
zero-interval short-circuit. -/
def interval_mul (x y : Interval) : Interval :=
  if (x.l = 0 ∧ x.u = 0) ∨ (y.l = 0 ∧ y.u = 0) then ⟨0, 0⟩
  else if x.l ≥ 0 then
    if y.l ≥ 0 then ⟨x.l * y.l, x.u * y.u⟩
    else if y.u ≤ 0 then ⟨x.u * y.l, x.l * y.u⟩
    else ⟨x.u * y.l, x.u * y.u⟩
  else if x.u ≤ 0 then
    if y.l ≥ 0 then ⟨x.l * y.u, x.u * y.l⟩
    else if y.u ≤ 0 then ⟨x.u * y.u, x.l * y.l⟩
    else ⟨x.l * y.u, x.l * y.l⟩
  else
    if y.l ≥ 0 then ⟨x.l * y.u, x.u * y.u⟩
    else if y.u ≤ 0 then ⟨x.u * y.l, x.l * y.l⟩
    else ⟨min (x.l * y.u) (x.u * y.l), max (x.l * y.l) (x.u * y.u)⟩

/-- `interval_scale`: multiplication by a constant, by sign of the scalar. -/
def interval_scale (x : Interval) (s : ℚ) : Interval :=
  if s ≥ 0 then ⟨s * x.l, s * x.u⟩ else ⟨s * x.u, s * x.l⟩

/-- `interval_fma`: `r = alpha * x + y`, by sign of `alpha`. -/
def interval_fma (alpha : ℚ) (x y : Interval) : Interval :=
  if alpha ≥ 0 then ⟨alpha * x.l + y.l, alpha * x.u + y.u⟩
  else ⟨alpha * x.u + y.l, alpha * x.l + y.u⟩

/-- `interval_glb`: `r.l = max`, `r.u = min`. -/
def interval_glb (x y : Interval) : Interval :=
  ⟨if x.l > y.l then x.l else y.l, if x.u < y.u then x.u else y.u⟩

/-- `interval_lub`: `r.l = min`, `r.u = max`. -/
def interval_lub (x y : Interval) : Interval :=
  ⟨if x.l < y.l then x.l else y.l, if x.u > y.u then x.u else y.u⟩

/-- Membership of a point in an interval (the concretisation
`{a | l ≤ a ≤ u}` from the interval.h header comment). -/
def interval_mem (a : ℚ) (x : Interval) : Prop :=
  x.l ≤ a ∧ a ≤ x.u

instance (a : ℚ) (x : Interval) : Decidable (interval_mem a x) := by
  unfold interval_mem; infer_instance

/-! ### Hyperrectangle domain (hyperrectangle.h) -/

/-- A hyperrectangle is the list of its component intervals; the space
size `n` is the length of the list. -/
abbrev Hyperrectangle := List Interval

/-- Default interval used to translate C array reads. -/
def dInt : Interval := ⟨0, 0⟩

/-- `hyperrectangle_is_bottom`: some component is bottom. -/
def hyperrectangle_is_bottom (x : Hyperrectangle) : Bool :=
  x.any interval_is_bottom

/-- `hyperrectangle_midpoint`: componentwise midpoint. -/
def hyperrectangle_midpoint (x : Hyperrectangle) : List ℚ :=
  x.map interval_midpoint

/-- `hyperrectangle_volume`: product of the componentwise radii. -/
def hyperrectangle_volume (x : Hyperrectangle) : ℚ :=
  x.foldl (fun v i => v * interval_radius i) 1

/-- `hyperrectangle_add`: componentwise `interval_add`. -/
def hyperrectangle_add (x y : Hyperrectangle) : Hyperrectangle :=
  List.zipWith interval_add x y

/-- `hyperrectangle_sub`: componentwise `interval_sub`. -/
def hyperrectangle_sub (x y : Hyperrectangle) : Hyperrectangle :=
  List.zipWith interval_sub x y

/-- `hyperrectangle_mul`: componentwise `interval_mul`. -/
def hyperrectangle_mul (x y : Hyperrectangle) : Hyperrectangle :=
  List.zipWith interval_mul x y

/-- `hyperrectangle_lub`: componentwise `interval_lub`. -/
def hyperrectangle_lub (x y : Hyperrectangle) : Hyperrectangle :=
  List.zipWith interval_lub x y

/-- One iteration of the `hyperrectangle_glb` loop: write the componentwise
glb into `r[i]`, and if that component is bottom overwrite `r[0]` with
`⟨+1, -1⟩` (the bottom sentinel used by the source). -/
def hyperrectangle_glb_step (x y : Hyperrectangle) (r : List Interval)
    (i : ℕ) : List Interval :=
  if interval_is_bottom
      ((r.set i (interval_glb (x.getD i dInt) (y.getD i dInt))).getD i dInt)
  then (r.set i (interval_glb (x.getD i dInt) (y.getD i dInt))).set 0 ⟨1, -1⟩
  else r.set i (interval_glb (x.getD i dInt) (y.getD i dInt))

/-- `hyperrectangle_glb`: the loop of the source, iterating
`hyperrectangle_glb_step` over all indices (the result buffer is written
at every index before being read, so its initial contents are
irrelevant; it is initialised with `dInt` here). -/
def hyperrectangle_glb (x y : Hyperrectangle) : Hyperrectangle :=
  (List.range x.length).foldl (hyperrectangle_glb_step x y)
    (List.replicate x.length dInt)

/-- Partial run of the `hyperrectangle_glb` loop: the state of the result
buffer after the first `k` iterations. -/
def glb_loop (x y : Hyperrectangle) (k : ℕ) : List Interval :=
  (List.range k).foldl (hyperrectangle_glb_step x y)
    (List.replicate x.length dInt)

/-- Membership of a point (a total valuation of the coordinates) in a
hyperrectangle: every component within bounds. -/
def hyperrectangle_mem (p : ℕ → ℚ) (x : Hyperrectangle) : Prop :=
  ∀ i, i < x.length → interval_mem (p i) (x.getD i dInt)

/-! ### Decision trees (decision_tree.h / decision_tree.c)

A node is a counting leaf, a logarithmic leaf, or a univariate linear
split `x_i ≤ k` with two children.  Leaves store their score arrays; the
derived fields `n_samples` (sum of scores) and `max_score` (maximum
score), which the source computes at leaf creation, are recomputed by
functions here.  Labels are represented by their index `0 ≤ i < K` in the
classifier's label array (labels are unique strings in the source, so the
index is a faithful key). -/

/-- A decision-tree node (`struct node` variants). -/
inductive DTNode where
  | leaf (scores : List ℕ)
  | leafLog (scores : List ℚ)
  | split (i : ℕ) (k : ℚ) (left right : DTNode)
deriving DecidableEq

/-- `n_samples` of a counting leaf: sum of its scores
(`decision_tree_leaf_create`). -/
def leaf_n_samples (scores : List ℕ) : ℕ :=
  scores.foldl (· + ·) 0

/-- `max_score` of a counting leaf (`decision_tree_leaf_create`). -/
def leaf_max_score (scores : List ℕ) : ℕ :=
  scores.foldl max (scores.headD 0)

/-- Concrete walk of a decision tree: descend left when `x_i ≤ k`, right
otherwise (`decision_tree_compute_decision_function`). -/
def tree_walk (p : ℕ → ℚ) : DTNode → DTNode
  | .leaf s => .leaf s
  | .leafLog s => .leafLog s
  | .split i k L R => if p i ≤ k then tree_walk p L else tree_walk p R

/-- `decision_tree_compute_decision_function`: walk to a leaf, then return
normalised probabilities (counting leaf) or the stored log-probabilities
(logarithmic leaf).  The split case is unreachable (`tree_walk` returns a
leaf). -/
def decision_tree_compute_decision_function (T : DTNode) (p : ℕ → ℚ) :
    List ℚ :=
  match tree_walk p T with
  | .leaf s => s.map (fun c => (c : ℚ) / (leaf_n_samples s : ℚ))
  | .leafLog s => s
  | .split _ _ _ _ => []

/-! ### Sets of labels (set.c, specialised to label indices)

The source stores labels in insertion order and skips duplicates; label
strings are unique, so a set is modelled as a duplicate-free `List ℕ`. -/

/-- `set_add_element`: append unless already present. -/
def set_add_element (S : List ℕ) (x : ℕ) : List ℕ :=
  if x ∈ S then S else S ++ [x]

/-- `set_is_subset`: every element of `A` occurs in `B`. -/
def set_is_subset (A B : List ℕ) : Bool :=
  A.all (fun a => B.any (fun b => a = b))

/-- `set_is_equal`: cardinality short-circuit, then mutual inclusion. -/
def set_is_equal (A B : List ℕ) : Bool :=
  if A.length = B.length then set_is_subset A B && set_is_subset B A
  else false

/-- `set_is_disjoint`: no common element (nested loops). -/
def set_is_disjoint (A B : List ℕ) : Bool :=
  A.all (fun a => !(B.any (fun b => a = b)))

/-- `set_intersection`: elements of `A` present in `B`, in `A`-order. -/
def set_intersection (A B : List ℕ) : List ℕ :=
  A.foldl (fun T x => if x ∈ B then set_add_element T x else T) []

/-- `set_get_cardinality`. -/
def set_get_cardinality (S : List ℕ) : ℕ :=
  S.length

/-- Maximum of a rational score array, scanned as in the source
(`max = scores[0]`, then a pass over all entries). -/
def scores_max_q (s : List ℚ) : ℚ :=
  s.foldl max (s.headD 0)

/-- Labels tying for the maximal score (`scores_to_labels` for counting
scores): indices `i` with `scores[i] = max`, in index order. -/
def scores_to_labels (s : List ℕ) : List ℕ :=
  (List.range s.length).filter (fun i => s.getD i 0 = s.foldl max (s.headD 0))

/-- Labels tying for the maximal score (`log_scores_to_labels` /
the final loop of `decision_tree_classify`). -/
def log_scores_to_labels (s : List ℚ) : List ℕ :=
  (List.range s.length).filter (fun i => s.getD i 0 = scores_max_q s)

/-- `decision_tree_classify`: argmax label set of the decision function. -/
def decision_tree_classify (T : DTNode) (p : ℕ → ℚ) : List ℕ :=
  log_scores_to_labels (decision_tree_compute_decision_function T p)

/-! ### Reachable-leaf enumeration (`reachable_leaves`)

The source runs an explicit-stack depth-first visit: at a split it pushes
the left child when `x[i].l ≤ k` and then the right child when
`x[i].u > k`, popping from the top of the stack, so the right subtree is
emitted before the left one.  The recursion below produces exactly that
sequence. -/

/-- `reachable_leaves`: all leaves whose guards are individually
compatible with `x` (right subtree first, as popped by the source). -/
def reachable_leaves (T : DTNode) (x : Hyperrectangle) : List DTNode :=
  match T with
  | .leaf s => [.leaf s]
  | .leafLog s => [.leafLog s]
  | .split i k L R =>
      (if (x.getD i dInt).u > k then reachable_leaves R x else []) ++
      (if (x.getD i dInt).l ≤ k then reachable_leaves L x else [])

/-- Well-formedness: every split feature index is below `n`. -/
def tree_features_lt (n : ℕ) : DTNode → Bool
  | .leaf _ => true
  | .leafLog _ => true
  | .split i _ L R =>
      decide (i < n) && tree_features_lt n L && tree_features_lt n R

/-- All feature indices tested anywhere in a tree. -/
def tree_features : DTNode → List ℕ
  | .leaf _ => []
  | .leafLog _ => []
  | .split i _ L R => i :: (tree_features L ++ tree_features R)

/-- No feature is tested twice along any root-to-leaf path. -/
def tree_feature_once_per_path : DTNode → Bool
  | .leaf _ => true
  | .leafLog _ => true
  | .split i _ L R =>
      !(decide (i ∈ tree_features L)) && !(decide (i ∈ tree_features R)) &&
      tree_feature_once_per_path L && tree_feature_once_per_path R

/-! ### Tier constraints (`adjust_tier`)

`struct tier` (tier.h) carries an array `tiers` of group identifiers, one
per feature, and its `size`; it is modelled as the list of group
identifiers (`size` is the length). -/

/-- A tier vector: group identifier per feature index (group `0` means
"not tiered"). -/
abbrev Tier := List ℕ

/-- One iteration of the `adjust_tier` "turning off" loop.  The running
state is the hyperrectangle together with the counters `n_members`,
`n_off` and `candidate`.  As in the source, the check
`n_members == n_off + 1` sits inside the `for` loop (it is evaluated at
every `j`, not only after the loop), and `candidate = j * (1 - is_off)`
falls back to `0` whenever member `j` is off. -/
def adjust_tier_off_loop (group : ℕ) (t : Tier) :
    Hyperrectangle × ℕ × ℕ × ℕ → ℕ → Hyperrectangle × ℕ × ℕ × ℕ :=
  fun st j =>
    let st1 :=
      if t.getD j 0 = group then
        let is_off : ℕ :=
          if (st.1.getD j dInt).l = 0 ∧ (st.1.getD j dInt).u = 0 then 1
          else 0
        (st.1, st.2.1 + 1, st.2.2.1 + is_off, j * (1 - is_off))
      else st
    if st1.2.1 = st1.2.2.1 + 1 then
      (st1.1.set st1.2.2.2 ⟨1, 1⟩, st1.2)
    else st1

/-- `adjust_tier`: enforce the one-hot constraint of feature `i`'s tier
group after `i` was clamped on (`is_active`) or off. -/
def adjust_tier (x : Hyperrectangle) (t : Tier) (i : ℕ)
    (is_active : Bool) : Hyperrectangle :=
  let group := t.getD i 0
  if group = 0 then x
  else if is_active then
    (List.range t.length).foldl
      (fun h j =>
        if j ≠ i ∧ t.getD j 0 = group then h.set j ⟨0, 0⟩ else h)
      (x.set i ⟨1, 1⟩)
  else
    ((List.range t.length).foldl (adjust_tier_off_loop group t)
      (x.set i ⟨0, 0⟩, 0, 0, 0)).1

/-- Interval sum of the features of a tier group (the quantity
`Σ_{i : tier[i]=g} H.intervals[i]` of the specification). -/
def tier_group_sum (x : Hyperrectangle) (t : Tier) (g : ℕ) : Interval :=
  ((List.range t.length).filter (fun j => t.getD j 0 = g)).foldl
    (fun s j => interval_add s (x.getD j dInt)) ⟨0, 0⟩

/-! ### Single-tree verifier (decision_tree_hyperrectangle.c) -/

/-- `enum stability_result`. -/
inductive StabilityResult where
  | STABILITY_TRUE
  | STABILITY_FALSE
  | STABILITY_DONT_KNOW
deriving DecidableEq

export StabilityResult (STABILITY_TRUE STABILITY_FALSE STABILITY_DONT_KNOW)

/-- The observable part of `struct stability_status`. -/
structure StabilityStatus where
  result : StabilityResult
  sample_a : List ℚ
  sample_b : List ℚ
  labels_a : List ℕ
deriving DecidableEq

/-- Label set of a leaf node, as computed by `is_counterexample_leaf`
(`scores_to_labels` on counting leaves, `log_scores_to_labels` on
logarithmic leaves; splits are not goals). -/
def leaf_label_set : DTNode → List ℕ
  | .leaf s => scores_to_labels s
  | .leafLog s => log_scores_to_labels s
  | .split _ _ _ _ => []

/-- `depth_first_search` over `compute_reachable_paths` /
`is_counterexample_leaf`: returns the first leaf (in the left-first pop
order of the source) that is reachable from `x` and whose label set
differs from `labels_a`, together with the root-to-leaf direction path
(`false` = left edge, `true` = right edge). -/
def search_counterexample_go (labels_a : List ℕ) (x : Hyperrectangle) :
    DTNode → List Bool → Option (List Bool × DTNode)
  | .leaf s, path =>
      if !set_is_equal labels_a (leaf_label_set (.leaf s)) then
        some (path, .leaf s)
      else none
  | .leafLog s, path =>
      if !set_is_equal labels_a (leaf_label_set (.leafLog s)) then
        some (path, .leafLog s)
      else none
  | .split i k L R, path =>
      (if (x.getD i dInt).l ≤ k then
        search_counterexample_go labels_a x L (path ++ [false])
      else none).orElse (fun _ =>
      if (x.getD i dInt).u > k then
        search_counterexample_go labels_a x R (path ++ [true])
      else none)

/-- Splits traversed by a root-to-leaf direction path. -/
def path_splits : DTNode → List Bool → List (ℕ × ℚ × Bool)
  | .split i k L R, d :: rest =>
      (i, k, d) :: path_splits (if d then R else L) rest
  | _, _ => []

/-- `leaf_to_hyperrectangle`: walk from the leaf back to the root,
clamping `u` to `min(u, k)` on a left edge and setting
`l = max(u, k)` on a right edge (exactly the source's assignment, which
reads the current upperbound). -/
def leaf_to_hyperrectangle (x : Hyperrectangle) (T : DTNode)
    (path : List Bool) : Hyperrectangle :=
  (path_splits T path).reverse.foldl
    (fun h step =>
      let v := h.getD step.1 dInt
      if step.2.2 then h.set step.1 ⟨max v.u step.2.1, v.u⟩
      else h.set step.1 ⟨v.l, min v.u step.2.1⟩)
    x

/-- `search_counterexample`: on success set `STABILITY_FALSE` and the
witness `sample_b` to the midpoint of the rebuilt leaf region. -/
def search_counterexample (status : StabilityStatus) (T : DTNode)
    (x : Hyperrectangle) : StabilityStatus :=
  match search_counterexample_go status.labels_a x T [] with
  | some (path, _) =>
      { status with
        result := STABILITY_FALSE
        sample_b := hyperrectangle_midpoint (leaf_to_hyperrectangle x T path) }
  | none => status

/-- Status at the start of the single-tree analysis (with
`has_sample = 0`, as invoked by the driver): the reference sample is the
midpoint of the region, classified concretely, and the result is
initialised to `STABILITY_DONT_KNOW`. -/
def dt_initial_status (T : DTNode) (x : Hyperrectangle) : StabilityStatus :=
  { result := STABILITY_DONT_KNOW
    sample_a := hyperrectangle_midpoint x
    sample_b := []
    labels_a :=
      decision_tree_classify T
        (fun i => (hyperrectangle_midpoint x).getD i 0) }

/-- `decision_tree_hyperrectangle_is_stable`: classify the midpoint,
search a counterexample, and report `STABILITY_TRUE` when none is
found. -/
def decision_tree_hyperrectangle_is_stable (T : DTNode)
    (x : Hyperrectangle) : StabilityStatus :=
  let st1 := search_counterexample (dt_initial_status T x) T x
  if st1.result = STABILITY_DONT_KNOW then
    { st1 with result := STABILITY_TRUE }
  else st1

/-! ### Binary heap (binary_heap.c) and priority queue (priority_queue.c)

The heap state is the backing array (as a list; capacity growth by
`realloc` is immaterial, the list simply grows), the number of live
nodes `size`, and the heap type.  Cells at indices `≥ size` hold stale
values from earlier operations, exactly as in the C array; every read
the source performs is within the list.  Payloads are the `void *`
elements, modelled by a type parameter. -/

/-- `enum heap_type`. -/
inductive HeapType where
  | HEAP_MIN
  | HEAP_MAX
deriving DecidableEq

export HeapType (HEAP_MIN HEAP_MAX)

/-- `struct binary_heap`. -/
structure BinaryHeap (α : Type) where
  nodes : List (α × ℚ)
  size : ℕ
  type : HeapType
deriving DecidableEq

/-- Key of the node stored at index `i`. -/
def heap_key {α : Type} [Inhabited α] (H : BinaryHeap α) (i : ℕ) : ℚ :=
  (H.nodes.getD i (default, 0)).2

/-- `index_of_parent`. -/
def index_of_parent (i : ℕ) : ℕ :=
  (i - 1) / 2

/-- `heap_property_local`: a node and its parent satisfy the heap
property (the root always does). -/
def heap_property_local {α : Type} [Inhabited α] (H : BinaryHeap α)
    (node_idx : ℕ) : Bool :=
  if node_idx = 0 then true
  else
    match H.type with
    | HEAP_MIN => decide (heap_key H (index_of_parent node_idx) ≤ heap_key H node_idx)
    | HEAP_MAX => decide (heap_key H (index_of_parent node_idx) ≥ heap_key H node_idx)

/-- `chose_child`: the child to swap with in a sift down. -/
def chose_child {α : Type} [Inhabited α] (H : BinaryHeap α)
    (left right : ℕ) : ℕ :=
  match H.type with
  | HEAP_MIN => if heap_key H left < heap_key H right then left else right
  | HEAP_MAX => if heap_key H left > heap_key H right then left else right

/-- `swap_nodes`. -/
def swap_nodes {α : Type} [Inhabited α] (nodes : List (α × ℚ)) (i j : ℕ) :
    List (α × ℚ) :=
  (nodes.set i (nodes.getD j (default, 0))).set j (nodes.getD i (default, 0))

/-- The `sift_up` loop.  The cursor strictly decreases at every
iteration, so the fuel passed by `sift_up` always suffices and the `0`
case is never reached from it. -/
def sift_up_fuel {α : Type} [Inhabited α] :
    ℕ → BinaryHeap α → ℕ → BinaryHeap α
  | 0, H, _ => H
  | fuel + 1, H, node_idx =>
      if heap_property_local H node_idx then H
      else
        sift_up_fuel fuel
          { H with
            nodes := swap_nodes H.nodes node_idx (index_of_parent node_idx) }
          (index_of_parent node_idx)

/-- `sift_up`. -/
def sift_up {α : Type} [Inhabited α] (H : BinaryHeap α) (index : ℕ) :
    BinaryHeap α :=
  sift_up_fuel (index + 1) H index

/-- The `is_restored` computation of `sift_down`: every in-range child of
`i` satisfies the heap property. -/
def heap_is_restored {α : Type} [Inhabited α] (H : BinaryHeap α) (i : ℕ) :
    Bool :=
  (!(decide (2 * i + 1 < H.size)) || heap_property_local H (2 * i + 1)) &&
  (!(decide (2 * i + 2 < H.size)) || heap_property_local H (2 * i + 2))

/-- The `sift_down` loop.  The cursor strictly increases and the loop
only continues while it is below `size`, so the fuel passed by
`sift_down` always suffices and the `0` case is never reached from
it. -/
def sift_down_fuel {α : Type} [Inhabited α] :
    ℕ → BinaryHeap α → ℕ → BinaryHeap α
  | 0, H, _ => H
  | fuel + 1, H, node_idx =>
      if heap_is_restored H node_idx then H
      else
        sift_down_fuel fuel
          { H with
            nodes := swap_nodes H.nodes node_idx
              (chose_child H (2 * node_idx + 1) (2 * node_idx + 2)) }
          (chose_child H (2 * node_idx + 1) (2 * node_idx + 2))

/-- `sift_down`. -/
def sift_down {α : Type} [Inhabited α] (H : BinaryHeap α) (index : ℕ) :
    BinaryHeap α :=
  sift_down_fuel (H.size + 1) H index

/-- `binary_heap_create`. -/
def binary_heap_create (α : Type) (t : HeapType) : BinaryHeap α :=
  ⟨[], 0, t⟩

/-- `binary_heap_is_empty`. -/
def binary_heap_is_empty {α : Type} (H : BinaryHeap α) : Bool :=
  H.size = 0

/-- `binary_heap_push`: write the element at index `size`, sift it up,
then increment `size`. -/
def binary_heap_push {α : Type} [Inhabited α] (H : BinaryHeap α) (x : α)
    (key : ℚ) : BinaryHeap α :=
  { sift_up
      { H with
        nodes :=
          if H.size < H.nodes.length then H.nodes.set H.size (x, key)
          else H.nodes ++ [(x, key)] }
      H.size
    with size := H.size + 1 }

/-- `binary_heap_pop`: return the root payload, move the last live node
to the root, decrement `size` and sift down.  (Popping an empty heap
aborts the program in the source; it is mapped to a no-op returning the
default payload and is never exercised by the theorems.) -/
def binary_heap_pop {α : Type} [Inhabited α] (H : BinaryHeap α) :
    α × BinaryHeap α :=
  if H.size = 0 then (default, H)
  else
    (((H.nodes.getD 0 (default, 0)).1),
      sift_down
        { H with
          nodes := H.nodes.set 0 (H.nodes.getD (H.size - 1) (default, 0))
          size := H.size - 1 }
        0)

/-- `priority_queue_create` (priority_queue.c): a `HEAP_MAX` binary
heap. -/
def priority_queue_create (α : Type) : BinaryHeap α :=
  binary_heap_create α HEAP_MAX

/-- `priority_queue_push`. -/
def priority_queue_push {α : Type} [Inhabited α] (P : BinaryHeap α)
    (x : α) (priority : ℚ) : BinaryHeap α :=
  binary_heap_push P x priority

/-- `priority_queue_pop`. -/
def priority_queue_pop {α : Type} [Inhabited α] (P : BinaryHeap α) :
    α × BinaryHeap α :=
  binary_heap_pop P

/-- `priority_queue_is_empty`. -/
def priority_queue_is_empty {α : Type} (P : BinaryHeap α) : Bool :=
  binary_heap_is_empty P

/-- Heap states reachable from the empty max-heap by pushes and pops
(the life cycle of a priority queue in the verifier). -/
inductive HeapReachable : BinaryHeap ℕ → Prop where
  | empty : HeapReachable (priority_queue_create ℕ)
  | push (H : BinaryHeap ℕ) (x : ℕ) (k : ℚ) :
      HeapReachable H → HeapReachable (binary_heap_push H x k)
  | pop (H : BinaryHeap ℕ) :
      HeapReachable H → HeapReachable (binary_heap_pop H).2

/-- The max-heap invariant on the live prefix. -/
def max_heap_prop {α : Type} [Inhabited α] (H : BinaryHeap α) : Prop :=
  ∀ j, 0 < j → j < H.size → heap_key H j ≤ heap_key H (index_of_parent j)

/-- The max-heap property below an explicit bound `n` (used while the
`size` field does not yet delimit the live region, as inside a push). -/
def max_heap_upto {α : Type} [Inhabited α] (H : BinaryHeap α) (n : ℕ) :
    Prop :=
  ∀ j, 0 < j → j < n → heap_key H j ≤ heap_key H (index_of_parent j)

/-- Sift-up invariant: the region below `n` is a max-heap except possibly
on the edge from `i` to its parent, and the children of `i` are already
dominated by `i`'s parent. -/
def max_heap_except_up {α : Type} [Inhabited α] (H : BinaryHeap α)
    (n i : ℕ) : Prop :=
  (∀ j, 0 < j → j < n → j ≠ i →
    heap_key H j ≤ heap_key H (index_of_parent j)) ∧
  (∀ c, 0 < c → c < n → index_of_parent c = i → 0 < i →
    heap_key H c ≤ heap_key H (index_of_parent i))

/-- Sift-down invariant: the live region is a max-heap except possibly on
the edges from `i` to its children, and the children of `i` are
dominated by `i`'s parent. -/
def max_heap_except_down {α : Type} [Inhabited α] (H : BinaryHeap α)
    (i : ℕ) : Prop :=
  (∀ j, 0 < j → j < H.size → index_of_parent j ≠ i →
    heap_key H j ≤ heap_key H (index_of_parent j)) ∧
  (∀ c, 0 < c → c < H.size → index_of_parent c = i → 0 < i →
    heap_key H c ≤ heap_key H (index_of_parent i))

/-! ### Forest model (forest.h / forest.c)

A forest is an ordered list of trees with a voting scheme; the label
array is shared by all trees, so only its size `K` is carried. -/

/-- `enum forest_voting_scheme`. -/
inductive ForestVotingScheme where
  | FOREST_VOTING_MAX
  | FOREST_VOTING_AVERAGE
  | FOREST_VOTING_SOFTARGMAX
deriving DecidableEq

export ForestVotingScheme
  (FOREST_VOTING_MAX FOREST_VOTING_AVERAGE FOREST_VOTING_SOFTARGMAX)

/-- `struct forest`, together with the label count of the shared label
array (`forest_get_n_labels`). -/
structure Forest where
  trees : List DTNode
  voting_scheme : ForestVotingScheme
  n_labels : ℕ
deriving DecidableEq

instance : Inhabited DTNode := ⟨.leaf []⟩

/-- `decision_function_max`: one vote per tree to each label tying for
the tree's maximal score. -/
def decision_function_max (F : Forest) (p : ℕ → ℚ) : List ℚ :=
  F.trees.foldl
    (fun scores T =>
      let ts := decision_tree_compute_decision_function T p
      (List.range F.n_labels).map
        (fun j =>
          scores.getD j 0 + if ts.getD j 0 = scores_max_q ts then 1 else 0))
    (List.replicate F.n_labels 0)

/-- `decision_function_average`. -/
def decision_function_average (F : Forest) (p : ℕ → ℚ) : List ℚ :=
  F.trees.foldl
    (fun scores T =>
      let ts := decision_tree_compute_decision_function T p
      (List.range F.n_labels).map
        (fun j => scores.getD j 0 + ts.getD j 0 / (F.trees.length : ℚ)))
    (List.replicate F.n_labels 0)

/-- `decision_function_softargmax` (the normalisation is not applied in
the source's concrete decision function either: it only sums the
per-tree log scores). -/
def decision_function_softargmax (F : Forest) (p : ℕ → ℚ) : List ℚ :=
  F.trees.foldl
    (fun scores T =>
      let ts := decision_tree_compute_decision_function T p
      (List.range F.n_labels).map
        (fun j => scores.getD j 0 + ts.getD j 0))
    (List.replicate F.n_labels 0)

/-- `forest_compute_decision_function`. -/
def forest_compute_decision_function (F : Forest) (p : ℕ → ℚ) : List ℚ :=
  match F.voting_scheme with
  | FOREST_VOTING_MAX => decision_function_max F p
  | FOREST_VOTING_AVERAGE => decision_function_average F p
  | FOREST_VOTING_SOFTARGMAX => decision_function_softargmax F p

/-- `forest_classify`: argmax label set of the voted score vector. -/
def forest_classify (F : Forest) (p : ℕ → ℚ) : List ℕ :=
  log_scores_to_labels (forest_compute_decision_function F p)

/-! ### Forest verifier (forest_hyperrectangle.c)

`exp` on machine doubles is transcendental and has no exact rational
counterpart, so the functions below are parameterised by the exponential
map `expQ` used by the SOFTARGMAX normalisation; the MAX and AVERAGE
paths never invoke it.  The wall clock is modelled as constant (elapsed
time `0`), which reproduces every run that finishes within its budget;
the search loops carry explicit fuel and return `none` on exhaustion, so
a `some` result certifies that the source loop terminates identically. -/

/-- `EPSILON` (1e-12). -/
def EPSILON : ℚ := 1 / 10 ^ 12

/-- `DBL_MAX` (the largest finite double, exactly). -/
def DBL_MAX : ℚ := 2 ^ 1024 - 2 ^ 971

/-- `enum internal_status`. -/
inductive InternalStatus where
  | DONT_KNOW
  | UNSTABLE
  | ABORTED
deriving DecidableEq

export InternalStatus (DONT_KNOW UNSTABLE ABORTED)

/-- `struct hyperrectangle_decorator`.  The parent chain is flattened
into the list of fixed leaves, deepest first (the root decorator has
none); the depth is its length, and the concrete-score walk reads
exactly this chain. -/
structure HyperrectangleDecorator where
  x : Hyperrectangle
  leaves : List DTNode
  labels : List ℕ
deriving DecidableEq

instance : Inhabited HyperrectangleDecorator := ⟨⟨[], [], []⟩⟩

/-- `decorator_get_depth`: number of ancestors. -/
def decorator_get_depth (d : HyperrectangleDecorator) : ℕ :=
  d.leaves.length

/-- `decision_tree_node_is_leaf`: a node with no children. -/
def decision_tree_node_is_leaf : DTNode → Bool
  | .split _ _ _ _ => false
  | _ => true

/-- Whether label `i` ties for the maximal count of a counting leaf
(`scores[i] == max_score`).  The MAX voting scheme requires counting
leaves (spec precondition); a logarithmic leaf yields no vote. -/
def leaf_counts_argmax (lf : DTNode) (i : ℕ) : Bool :=
  match lf with
  | .leaf s => decide (s.getD i 0 = leaf_max_score s)
  | _ => false

/-- `scores[i] / n_samples` of a counting leaf (AVERAGE voting
precondition). -/
def leaf_probability (lf : DTNode) (i : ℕ) : ℚ :=
  match lf with
  | .leaf s => (s.getD i 0 : ℚ) / (leaf_n_samples s : ℚ)
  | _ => 0

/-- Log score of a logarithmic leaf (SOFTARGMAX voting precondition). -/
def leaf_log_score (lf : DTNode) (i : ℕ) : ℚ :=
  match lf with
  | .leafLog s => s.getD i 0
  | _ => 0

/-- `decorator_score_concrete_max`: walk the chain of fixed leaves,
adding one (point-interval) vote per argmax tie. -/
def decorator_score_concrete_max (K : ℕ) (d : HyperrectangleDecorator) :
    Hyperrectangle :=
  d.leaves.foldl
    (fun scores lf =>
      (List.range K).map
        (fun i =>
          if leaf_counts_argmax lf i then
            interval_add (scores.getD i dInt) ⟨1, 1⟩
          else scores.getD i dInt))
    (List.replicate K dInt)

/-- `decorator_score_concrete_average`. -/
def decorator_score_concrete_average (K n_trees : ℕ)
    (d : HyperrectangleDecorator) : Hyperrectangle :=
  d.leaves.foldl
    (fun scores lf =>
      (List.range K).map
        (fun i =>
          interval_add (scores.getD i dInt)
            ⟨leaf_probability lf i / (n_trees : ℚ),
             leaf_probability lf i / (n_trees : ℚ)⟩))
    (List.replicate K dInt)

/-- `decorator_score_concrete_softargmax`. -/
def decorator_score_concrete_softargmax (K : ℕ)
    (d : HyperrectangleDecorator) : Hyperrectangle :=
  d.leaves.foldl
    (fun scores lf =>
      (List.range K).map
        (fun i =>
          interval_add (scores.getD i dInt)
            ⟨leaf_log_score lf i, leaf_log_score lf i⟩))
    (List.replicate K dInt)

/-- `decorator_score_concrete`: dispatch on the voting scheme. -/
def decorator_score_concrete (F : Forest) (d : HyperrectangleDecorator) :
    Hyperrectangle :=
  match F.voting_scheme with
  | FOREST_VOTING_MAX => decorator_score_concrete_max F.n_labels d
  | FOREST_VOTING_AVERAGE =>
      decorator_score_concrete_average F.n_labels F.trees.length d
  | FOREST_VOTING_SOFTARGMAX =>
      decorator_score_concrete_softargmax F.n_labels d

/-- `decorator_score_sound_max`: per still-abstract tree, count over the
reachable leaves how many give label `i` an argmax tie; the lowerbound
gains `1` when all of them do (also vacuously when no leaf is
reachable, as in the source) and the upperbound gains `1` when at least
one does. -/
def decorator_score_sound_max (K : ℕ) (region : Hyperrectangle)
    (T : DTNode) (scores : Hyperrectangle) : Hyperrectangle :=
  (List.range K).map
    (fun i =>
      ⟨(scores.getD i dInt).l +
        (if ((reachable_leaves T region).filter
            (fun lf => leaf_counts_argmax lf i)).length =
            (reachable_leaves T region).length then 1 else 0),
       (scores.getD i dInt).u +
        (if 0 < ((reachable_leaves T region).filter
            (fun lf => leaf_counts_argmax lf i)).length then 1 else 0)⟩)

/-- `decorator_score_sound_average`: per label, add the extremal leaf
probabilities over the reachable leaves divided by the tree count (the
running extrema start from `1.0` and `0.0` as in the source). -/
def decorator_score_sound_average (K n_trees : ℕ)
    (region : Hyperrectangle) (T : DTNode) (scores : Hyperrectangle) :
    Hyperrectangle :=
  (List.range K).map
    (fun i =>
      ⟨(scores.getD i dInt).l +
        ((reachable_leaves T region).foldl
          (fun m lf => min m (leaf_probability lf i)) 1) / (n_trees : ℚ),
       (scores.getD i dInt).u +
        ((reachable_leaves T region).foldl
          (fun m lf => max m (leaf_probability lf i)) 0) / (n_trees : ℚ)⟩)

/-- `decorator_score_sound_softargmax`: extremal log scores over the
reachable leaves (extrema start from `±DBL_MAX`). -/
def decorator_score_sound_softargmax (K : ℕ) (region : Hyperrectangle)
    (T : DTNode) (scores : Hyperrectangle) : Hyperrectangle :=
  (List.range K).map
    (fun i =>
      ⟨(scores.getD i dInt).l +
        ((reachable_leaves T region).foldl
          (fun m lf => min m (leaf_log_score lf i)) DBL_MAX),
       (scores.getD i dInt).u +
        ((reachable_leaves T region).foldl
          (fun m lf => max m (leaf_log_score lf i)) (-DBL_MAX))⟩)

/-- `decorator_score_sound`: overapproximate every tree from the
decorator's depth on, then apply the SOFTARGMAX normalisation
`exp(l)/Σ exp(u)`, `exp(u)/Σ exp(l)` when that scheme is selected. -/
def decorator_score_sound (expQ : ℚ → ℚ) (F : Forest)
    (d : HyperrectangleDecorator) (scores0 : Hyperrectangle) :
    Hyperrectangle :=
  let base :=
    (F.trees.drop (decorator_get_depth d)).foldl
      (fun sc T =>
        match F.voting_scheme with
        | FOREST_VOTING_MAX => decorator_score_sound_max F.n_labels d.x T sc
        | FOREST_VOTING_AVERAGE =>
            decorator_score_sound_average F.n_labels F.trees.length d.x T sc
        | FOREST_VOTING_SOFTARGMAX =>
            decorator_score_sound_softargmax F.n_labels d.x T sc)
      scores0
  match F.voting_scheme with
  | FOREST_VOTING_SOFTARGMAX =>
      (List.range F.n_labels).map
        (fun i =>
          ⟨expQ (base.getD i dInt).l /
            ((List.range F.n_labels).foldl
              (fun s j => s + expQ (base.getD j dInt).u) 0),
           expQ (base.getD i dInt).u /
            ((List.range F.n_labels).foldl
              (fun s j => s + expQ (base.getD j dInt).l) 0)⟩)
  | _ => base

/-- The forest-side `scores_to_labels`: keep label `i` unless another
label's score interval strictly dominates it (`interval_is_lt`).  The
source's `set_has_element` skip never fires because labels are
pairwise distinct. -/
def scores_to_labels_hyp (K : ℕ) (scores : Hyperrectangle) : List ℕ :=
  (List.range K).filter
    (fun i =>
      !((List.range K).any
        (fun j =>
          decide (j ≠ i) &&
          interval_is_lt (scores.getD i dInt) (scores.getD j dInt))))

/-- `decorator_compute_labels`. -/
def decorator_compute_labels (expQ : ℚ → ℚ) (F : Forest)
    (d : HyperrectangleDecorator) : List ℕ :=
  scores_to_labels_hyp F.n_labels
    (decorator_score_sound expQ F d (decorator_score_concrete F d))

/-- `struct analysis_data` (the fields the embedded analysis reads). -/
structure AnalysisData where
  F : Forest
  labels_a : List ℕ
  timeout : ℕ
  tier : Tier

/-- `trees[depth]` of the analysis forest. -/
def F_tree_at (data : AnalysisData) (depth : ℕ) : DTNode :=
  data.F.trees.getD depth default

/-- `compute_priority`: the source reads the analysis scratch set
`local_labels` (not the decorator's own label set) and intersects it in
place with `labels_a`. -/
def compute_priority (local_labels labels_a : List ℕ) (K : ℕ)
    (d : HyperrectangleDecorator) : ℚ :=
  (- 1000000) * hyperrectangle_volume d.x
    + 1 * (decorator_get_depth d : ℚ)
    + 1 * ((set_get_cardinality local_labels : ℚ) -
        (set_get_cardinality (set_intersection local_labels labels_a) : ℚ))
      / (K : ℚ)

/-- The priority formula as the specification states it: computed from
the decorator's own overapproximated label set (second definition kept
for comparison with the source's `compute_priority`). -/
def spec_priority (labels_a : List ℕ) (K : ℕ)
    (d : HyperrectangleDecorator) : ℚ :=
  (- 1000000) * hyperrectangle_volume d.x
    + 1 * (decorator_get_depth d : ℚ)
    + ((d.labels.length : ℚ) -
        ((set_intersection d.labels labels_a).length : ℚ)) / (K : ℚ)

/-- Outcome of handling a reachable leaf inside `refine`. -/
inductive RefineLeafOutcome where
  | stop (sample_b : List ℚ)
  | drop
  | keep (h : HyperrectangleDecorator)

/-- The leaf case of the `refine` traversal: build the child decorator,
compute its label overapproximation, and classify it as a
counterexample (stop), a robust leaf (drop), or a refined child
(keep). -/
def refine_handle_leaf (expQ : ℚ → ℚ) (data : AnalysisData)
    (x : HyperrectangleDecorator) (x_prime : Hyperrectangle)
    (N : DTNode) : RefineLeafOutcome :=
  let lbls := decorator_compute_labels expQ data.F ⟨x_prime, N :: x.leaves, []⟩
  if set_is_disjoint lbls data.labels_a then
    .stop (hyperrectangle_midpoint x_prime)
  else if set_is_equal lbls data.labels_a then .drop
  else .keep ⟨x_prime, N :: x.leaves, lbls⟩

/-- The `refine` traversal loop over the paired queues `Qx`/`Qt` (the
two source queues always receive identical priorities, so they stay
aligned and are modelled as one queue of pairs; the third component is
the tree-node depth the source recovers from parent pointers). -/
def refine_loop (expQ : ℚ → ℚ) (data : AnalysisData)
    (x : HyperrectangleDecorator) :
    ℕ → BinaryHeap (Hyperrectangle × DTNode × ℕ) →
    List HyperrectangleDecorator →
    Option (List HyperrectangleDecorator × InternalStatus × Option (List ℚ))
  | 0, _, _ => none
  | fuel + 1, Q, refined =>
    if priority_queue_is_empty Q then some (refined, DONT_KNOW, none)
    else
      match (priority_queue_pop Q).1.2.1, (priority_queue_pop Q).1.1,
          (priority_queue_pop Q).1.2.2, (priority_queue_pop Q).2 with
      | .split i k L R, x_prime, dN, Q1 =>
        if (x_prime.getD i dInt).l ≤ k ∧ (x_prime.getD i dInt).u > k then
          refine_loop expQ data x fuel
            (priority_queue_push
              (priority_queue_push Q1
                (adjust_tier
                  (x_prime.set i
                    ⟨(x_prime.getD i dInt).l, min (x_prime.getD i dInt).u k⟩)
                  data.tier i false, L, dN + 1)
                ((dN : ℚ) +
                  (k - ((adjust_tier
                    (x_prime.set i
                      ⟨(x_prime.getD i dInt).l, min (x_prime.getD i dInt).u k⟩)
                    data.tier i false).getD i dInt).l) /
                  interval_radius
                    ((adjust_tier
                      (x_prime.set i
                        ⟨(x_prime.getD i dInt).l,
                          min (x_prime.getD i dInt).u k⟩)
                      data.tier i false).getD i dInt)))
              (adjust_tier
                (x_prime.set i
                  ⟨max ((adjust_tier
                      (x_prime.set i
                        ⟨(x_prime.getD i dInt).l,
                          min (x_prime.getD i dInt).u k⟩)
                      data.tier i false).getD i dInt).u (k + EPSILON),
                    (x_prime.getD i dInt).u⟩)
                data.tier i true, R, dN + 1)
              ((dN : ℚ) +
                (((adjust_tier
                    (x_prime.set i
                      ⟨(x_prime.getD i dInt).l, min (x_prime.getD i dInt).u k⟩)
                    data.tier i false).getD i dInt).u - k) /
                interval_radius
                  ((adjust_tier
                    (x_prime.set i
                      ⟨(x_prime.getD i dInt).l, min (x_prime.getD i dInt).u k⟩)
                    data.tier i false).getD i dInt)))
            refined
        else if (x_prime.getD i dInt).u ≤ k then
          refine_loop expQ data x fuel
            (priority_queue_push Q1
              (adjust_tier x_prime data.tier i false, L, dN + 1)
              ((dN : ℚ) +
                (k - ((adjust_tier x_prime data.tier i false).getD i dInt).l) /
                interval_radius
                  ((adjust_tier x_prime data.tier i false).getD i dInt)))
            refined
        else if (x_prime.getD i dInt).l > k then
          refine_loop expQ data x fuel
            (priority_queue_push Q1
              (adjust_tier x_prime data.tier i true, R, dN + 1)
              ((dN : ℚ) +
                (((adjust_tier x_prime data.tier i true).getD i dInt).u - k) /
                interval_radius
                  ((adjust_tier x_prime data.tier i true).getD i dInt)))
            refined
        else
          refine_loop expQ data x fuel Q1 refined
      | N, x_prime, _, Q1 =>
        match refine_handle_leaf expQ data x x_prime N with
        | .stop sb => some (refined, UNSTABLE, some sb)
        | .drop => refine_loop expQ data x fuel Q1 refined
        | .keep h => refine_loop expQ data x fuel Q1 (refined ++ [h])

/-- `refine`: terminal case when the whole ensemble is fixed, otherwise
traverse the next tree from its root (both queues start with the
region and the root at priority `0`). -/
def refine (expQ : ℚ → ℚ) (data : AnalysisData)
    (x : HyperrectangleDecorator) (fuel : ℕ) :
    Option (List HyperrectangleDecorator × InternalStatus × Option (List ℚ)) :=
  if decorator_get_depth x = data.F.trees.length then
    if !set_is_equal x.labels data.labels_a then
      some ([], UNSTABLE, some (hyperrectangle_midpoint x.x))
    else some ([], DONT_KNOW, none)
  else
    refine_loop expQ data x fuel
      (priority_queue_push
        (priority_queue_create (Hyperrectangle × DTNode × ℕ))
        (x.x, F_tree_at data (decorator_get_depth x), 0) 0)
      []

/-- `is_complete`: stop when a counterexample was found, or on timeout.
The clock is constant, so the timeout branch (which would set
`ABORTED`) never fires in the embedding. -/
def is_complete (data : AnalysisData) (status : InternalStatus) : Bool :=
  if status ≠ DONT_KNOW then true
  else if (0 : ℕ) > data.timeout then true
  else false

/-- Pushing a `refine` result into the best-first frontier: children are
popped from the tail of the refined list, each priced by
`compute_priority`, which intersects the scratch label set with
`labels_a` in place. -/
def best_first_push_children (labels_a : List ℕ) (K : ℕ) :
    BinaryHeap HyperrectangleDecorator × List ℕ →
    List HyperrectangleDecorator →
    BinaryHeap HyperrectangleDecorator × List ℕ :=
  fun st children =>
    children.foldl
      (fun st y =>
        (priority_queue_push st.1 y (compute_priority st.2 labels_a K y),
         set_intersection st.2 labels_a))
      st

/-- The `best_first_search` loop specialised to the stability analysis:
pop the highest-priority decorator, stop if the internal status says so,
otherwise refine it and push the refined children (in the source's
tail-pop order). -/
def best_first_loop (expQ : ℚ → ℚ) (data : AnalysisData) (rfuel : ℕ) :
    ℕ → BinaryHeap HyperrectangleDecorator → InternalStatus → List ℚ →
    List ℕ → Option (InternalStatus × List ℚ)
  | 0, _, _, _, _ => none
  | fuel + 1, Q, status, sample_b, local_labels =>
    if priority_queue_is_empty Q then some (status, sample_b)
    else
      if is_complete data status then some (status, sample_b)
      else
        match refine expQ data (priority_queue_pop Q).1 rfuel with
        | none => none
        | some r =>
            best_first_loop expQ data rfuel fuel
              (best_first_push_children data.labels_a data.F.n_labels
                ((priority_queue_pop Q).2, local_labels) r.1.reverse).1
              r.2.1 (r.2.2.getD sample_b)
              (best_first_push_children data.labels_a data.F.n_labels
                ((priority_queue_pop Q).2, local_labels) r.1.reverse).2

/-- `forest_hyperrectangle_is_stable` (with `has_sample = 0`): classify
the midpoint, run the best-first refinement from the initial decorator
(pushed at priority `0`), and map the internal status to the verdict.
`none` means the explicit fuel ran out, which the source's unbounded
loops cannot observe; a `some` result is the faithful outcome. -/
def forest_hyperrectangle_is_stable (expQ : ℚ → ℚ) (F : Forest)
    (x : Hyperrectangle) (t : Tier) (timeout : ℕ) (fuel : ℕ) :
    Option StabilityStatus :=
  match best_first_loop expQ ⟨F, forest_classify F
      (fun i => (hyperrectangle_midpoint x).getD i 0), timeout, t⟩ fuel fuel
      (priority_queue_push
        (priority_queue_create HyperrectangleDecorator) ⟨x, [], []⟩ 0)
      DONT_KNOW [] [] with
  | none => none
  | some r =>
      some
        { result :=
            match r.1 with
            | DONT_KNOW => STABILITY_TRUE
            | UNSTABLE => STABILITY_FALSE
            | ABORTED => STABILITY_DONT_KNOW
          sample_a := hyperrectangle_midpoint x
          sample_b := r.2
          labels_a := forest_classify F
            (fun i => (hyperrectangle_midpoint x).getD i 0) }

/-!
## Theorems
-/

/-- C3: the claimed interval-arithmetic soundness fails: `interval_sub` as
implemented computes `⟨x.l - y.l, x.u - y.u⟩`, so for the non-bottom
intervals `x = [0,1]` and `y = [0,1]`, the points `a = 0 ∈ x` and
`b = 1 ∈ y` have `a - b = -1`, which is not contained in
`interval_sub x y = [0,0]`. -/
theorem C3_interval_sub_unsound :
    ¬ interval_is_bottom ⟨0, 1⟩ = true ∧
    interval_mem 0 ⟨0, 1⟩ ∧ interval_mem 1 ⟨0, 1⟩ ∧
    interval_sub ⟨0, 1⟩ ⟨0, 1⟩ = ⟨0, 0⟩ ∧
    ¬ interval_mem (0 - 1) (interval_sub ⟨0, 1⟩ ⟨0, 1⟩) := by
  refine ⟨by decide, by decide, by decide, ?_, by with_unfolding_all decide⟩
  with_unfolding_all decide

/-- Every component of a non-bottom hyperrectangle is a non-empty
interval. -/
theorem nonbottom_component {H : Hyperrectangle}
    (hnb : hyperrectangle_is_bottom H = false) {i : ℕ} (hi : i < H.length) :
    (H.getD i dInt).l ≤ (H.getD i dInt).u := by
  have hmem : H.getD i dInt ∈ H := by
    rw [List.getD_eq_getElem H dInt hi]
    exact List.getElem_mem hi
  have hfalse : interval_is_bottom (H.getD i dInt) = false := by
    cases hbb : interval_is_bottom (H.getD i dInt) with
    | false => rfl
    | true =>
      have : hyperrectangle_is_bottom H = true := by
        unfold hyperrectangle_is_bottom
        exact List.any_eq_true.mpr ⟨_, hmem, hbb⟩
      rw [hnb] at this
      exact absurd this (by simp)
  simpa [interval_is_bottom, not_lt] using hfalse

/-- `tree_walk` only inspects coordinates that appear as split features. -/
theorem tree_walk_congr {p q : ℕ → ℚ} :
    ∀ T : DTNode, (∀ j ∈ tree_features T, p j = q j) →
      tree_walk p T = tree_walk q T := by
  intro T
  induction T with
  | leaf s => intro _; rfl
  | leafLog s => intro _; rfl
  | split i k L R ihL ihR =>
    intro h
    have hi : p i = q i := h i (by simp [tree_features])
    have hL : ∀ j ∈ tree_features L, p j = q j := by
      intro j hj; exact h j (by simp [tree_features, hj])
    have hR : ∀ j ∈ tree_features R, p j = q j := by
      intro j hj; exact h j (by simp [tree_features, hj])
    simp only [tree_walk, hi, ihL hL, ihR hR]

/-- C5: reachable-leaf completeness.  For every tree whose split features
lie inside the space, every point of `H` and the leaf its concrete walk
reaches, that leaf occurs in `reachable_leaves`. -/
theorem C5_reachable_leaves_complete (T : DTNode) (H : Hyperrectangle)
    (p : ℕ → ℚ) (hwf : tree_features_lt H.length T = true)
    (hmem : hyperrectangle_mem p H) :
    tree_walk p T ∈ reachable_leaves T H := by
  induction T with
  | leaf s => simp [tree_walk, reachable_leaves]
  | leafLog s => simp [tree_walk, reachable_leaves]
  | split i k L R ihL ihR =>
    simp only [tree_features_lt, Bool.and_eq_true, decide_eq_true_eq] at hwf
    obtain ⟨⟨hi, hwL⟩, hwR⟩ := hwf
    have hmi := hmem i hi
    simp only [reachable_leaves, List.mem_append]
    by_cases hpk : p i ≤ k
    · have hcond : (H.getD i dInt).l ≤ k := le_trans hmi.1 hpk
      refine Or.inr ?_
      rw [if_pos hcond]
      simpa [tree_walk, hpk] using ihL hwL
    · have hcond : (H.getD i dInt).u > k :=
        lt_of_lt_of_le (lt_of_not_le hpk) hmi.2
      refine Or.inl ?_
      rw [if_pos hcond]
      simpa [tree_walk, hpk] using ihR hwR

/-- C5 witness: a concrete stump, region and point instantiating the
completeness theorem. -/
theorem C5_reachable_leaves_complete_witness :
    tree_walk (fun _ => 0)
        (.split 0 (1 / 2) (.leaf [2, 1]) (.leaf [1, 2])) ∈
      reachable_leaves (.split 0 (1 / 2) (.leaf [2, 1]) (.leaf [1, 2]))
        [⟨0, 1⟩] :=
  C5_reachable_leaves_complete _ _ _ (by with_unfolding_all decide)
    (by
      intro i hi
      have h0 : i = 0 := by simpa [Nat.lt_one_iff] using hi
      subst h0
      with_unfolding_all decide)

/-- C4 counterexample: reachable-leaf soundness fails.  In the tree
`split(0,3)` whose left child is `split(0,5)` with right child
`leaf [0,1,0]`, that leaf is enumerated for the non-bottom region
`H = [0,10]` (each guard is individually satisfiable), yet no point at
all reaches it concretely: the path requires `x₀ ≤ 3` and `x₀ > 5`. -/
theorem C4_reachable_leaves_not_sound :
    DTNode.leaf [0, 1, 0] ∈
      reachable_leaves
        (.split 0 3 (.split 0 5 (.leaf [1, 0, 0]) (.leaf [0, 1, 0]))
          (.leaf [0, 0, 1])) [⟨0, 10⟩] ∧
    ¬ hyperrectangle_is_bottom [⟨0, 10⟩] = true ∧
    ∀ p : ℕ → ℚ,
      tree_walk p
          (.split 0 3 (.split 0 5 (.leaf [1, 0, 0]) (.leaf [0, 1, 0]))
            (.leaf [0, 0, 1])) ≠ .leaf [0, 1, 0] := by
  refine ⟨by with_unfolding_all decide, by decide, ?_⟩
  intro p
  simp only [tree_walk]
  by_cases h3 : p 0 ≤ 3
  · have h5 : p 0 ≤ 5 := le_trans h3 (by norm_num)
    rw [if_pos h3, if_pos h5]
    simp
  · rw [if_neg h3]
    simp

/-- C4 amended: if no feature is tested twice along any root-to-leaf
path, then every leaf enumerated by `reachable_leaves` on a non-bottom
region is reached by a concrete point of the region. -/
theorem C4_amended_reachable_leaves_sound (T : DTNode) (H : Hyperrectangle)
    (hwf : tree_features_lt H.length T = true)
    (honce : tree_feature_once_per_path T = true)
    (hnb : hyperrectangle_is_bottom H = false) :
    ∀ lf ∈ reachable_leaves T H,
      ∃ p, hyperrectangle_mem p H ∧ tree_walk p T = lf := by
  induction T with
  | leaf s =>
    intro lf hlf
    simp only [reachable_leaves, List.mem_singleton] at hlf
    subst hlf
    refine ⟨fun j => (H.getD j dInt).l, ?_, rfl⟩
    intro j hj
    exact ⟨le_refl _, nonbottom_component hnb hj⟩
  | leafLog s =>
    intro lf hlf
    simp only [reachable_leaves, List.mem_singleton] at hlf
    subst hlf
    refine ⟨fun j => (H.getD j dInt).l, ?_, rfl⟩
    intro j hj
    exact ⟨le_refl _, nonbottom_component hnb hj⟩
  | split i k L R ihL ihR =>
    simp only [tree_features_lt, Bool.and_eq_true, decide_eq_true_eq] at hwf
    obtain ⟨⟨hi, hwL⟩, hwR⟩ := hwf
    simp only [tree_feature_once_per_path, Bool.and_eq_true,
      Bool.not_eq_true', decide_eq_false_iff_not] at honce
    obtain ⟨⟨⟨hiL, hiR⟩, honL⟩, honR⟩ := honce
    intro lf hlf
    simp only [reachable_leaves, List.mem_append] at hlf
    rcases hlf with hlf | hlf
    · -- right subtree, guarded by `H[i].u > k`
      by_cases hcond : (H.getD i dInt).u > k
      · rw [if_pos hcond] at hlf
        obtain ⟨p, hpmem, hpwalk⟩ := ihR hwR honR lf hlf
        refine ⟨Function.update p i (H.getD i dInt).u, ?_, ?_⟩
        · intro j hj
          by_cases hji : j = i
          · subst hji
            simp only [Function.update_same]
            exact ⟨nonbottom_component hnb hj, le_refl _⟩
          · simpa [Function.update_noteq hji] using hpmem j hj
        · have hqi : ¬ Function.update p i (H.getD i dInt).u i ≤ k := by
            simp only [Function.update_same]
            exact not_le_of_lt hcond
          rw [tree_walk, if_neg hqi]
          rw [tree_walk_congr R (p := Function.update p i (H.getD i dInt).u)
            (q := p) ?_]
          · exact hpwalk
          · intro j hj
            have : j ≠ i := fun hji => hiR (hji ▸ hj)
            simp [Function.update_noteq this]
      · rw [if_neg hcond] at hlf
        exact absurd hlf (List.not_mem_nil _)
    · -- left subtree, guarded by `H[i].l ≤ k`
      by_cases hcond : (H.getD i dInt).l ≤ k
      · rw [if_pos hcond] at hlf
        obtain ⟨p, hpmem, hpwalk⟩ := ihL hwL honL lf hlf
        refine ⟨Function.update p i (H.getD i dInt).l, ?_, ?_⟩
        · intro j hj
          by_cases hji : j = i
          · subst hji
            simp only [Function.update_same]
            exact ⟨le_refl _, nonbottom_component hnb hj⟩
          · simpa [Function.update_noteq hji] using hpmem j hj
        · have hqi : Function.update p i (H.getD i dInt).l i ≤ k := by
            simp only [Function.update_same]
            exact hcond
          rw [tree_walk, if_pos hqi]
          rw [tree_walk_congr L (p := Function.update p i (H.getD i dInt).l)
            (q := p) ?_]
          · exact hpwalk
          · intro j hj
            have : j ≠ i := fun hji => hiL (hji ▸ hj)
            simp [Function.update_noteq this]
      · rw [if_neg hcond] at hlf
        exact absurd hlf (List.not_mem_nil _)

/-- C4 amended witness: instantiation of the amended soundness theorem on
a concrete stump and region. -/
theorem C4_amended_reachable_leaves_sound_witness :
    ∃ p, hyperrectangle_mem p [⟨0, 1⟩] ∧
      tree_walk p (.split 0 (1 / 2) (.leaf [2, 1]) (.leaf [1, 2])) =
        .leaf [1, 2] :=
  C4_amended_reachable_leaves_sound _ _ (by with_unfolding_all decide)
    (by decide) (by decide) (.leaf [1, 2]) (by with_unfolding_all decide)

/-- `search_counterexample` either proves instability or leaves the
status untouched. -/
theorem search_counterexample_result (st : StabilityStatus) (T : DTNode)
    (x : Hyperrectangle) :
    (search_counterexample st T x).result = STABILITY_FALSE ∨
    search_counterexample st T x = st := by
  unfold search_counterexample
  cases search_counterexample_go st.labels_a x T [] with
  | none => exact Or.inr rfl
  | some v =>
    obtain ⟨path, lf⟩ := v
    exact Or.inl rfl

/-- C10: the single-tree verifier never reports `STABILITY_DONT_KNOW`:
the inconclusive value set at the start of the analysis is always
overwritten, either by the counterexample search or by the final
promotion to `STABILITY_TRUE`; there is no timeout path. -/
theorem C10_single_tree_never_unknown (T : DTNode) (x : Hyperrectangle) :
    (decision_tree_hyperrectangle_is_stable T x).result = STABILITY_TRUE ∨
    (decision_tree_hyperrectangle_is_stable T x).result = STABILITY_FALSE := by
  rcases search_counterexample_result (dt_initial_status T x) T x with h | h
  · right
    simp [decision_tree_hyperrectangle_is_stable, h]
  · left
    simp only [decision_tree_hyperrectangle_is_stable]
    rw [h]
    simp [dt_initial_status]

/-- C2: witness validity of UNSTABLE fails.  On the tree
`split(0,5){leaf A, split(0,3){leaf C, leaf A}}` and region `[-10,10]`
(reference labels `{A}` from the midpoint `0`), the verifier reports
`STABILITY_FALSE` with witness `sample_b = [4]`, a point inside the
region whose classification is `{A} = labels_a` — the returned witness is
not a counterexample. -/
theorem C2_unstable_witness_invalid :
    (decision_tree_hyperrectangle_is_stable
        (.split 0 5 (.leaf [1, 0, 0])
          (.split 0 3 (.leaf [0, 0, 1]) (.leaf [1, 0, 0])))
        [⟨-10, 10⟩]).result = STABILITY_FALSE ∧
    (decision_tree_hyperrectangle_is_stable
        (.split 0 5 (.leaf [1, 0, 0])
          (.split 0 3 (.leaf [0, 0, 1]) (.leaf [1, 0, 0])))
        [⟨-10, 10⟩]).sample_b = [4] ∧
    hyperrectangle_mem (fun _ => 4) [⟨-10, 10⟩] ∧
    decision_tree_classify
        (.split 0 5 (.leaf [1, 0, 0])
          (.split 0 3 (.leaf [0, 0, 1]) (.leaf [1, 0, 0])))
        (fun _ => 4) =
      (decision_tree_hyperrectangle_is_stable
        (.split 0 5 (.leaf [1, 0, 0])
          (.split 0 3 (.leaf [0, 0, 1]) (.leaf [1, 0, 0])))
        [⟨-10, 10⟩]).labels_a := by
  refine ⟨?_, ?_, ?_, ?_⟩
  · with_unfolding_all decide
  · with_unfolding_all decide
  · intro i hi
    have h0 : i = 0 := by simpa [Nat.lt_one_iff] using hi
    subst h0
    with_unfolding_all decide
  · with_unfolding_all decide

/-- C8 counterexample: `hyperrectangle_glb` is not componentwise.  At
`x = [[0,1],[0,1]]` and `y = [[0,1],[2,3]]` the second component
intersection is empty, so the loop overwrites component `0` with the
sentinel `⟨1,-1⟩`, which differs from the componentwise glb
`interval_glb [0,1] [0,1] = [0,1]`. -/
theorem C8_glb_not_componentwise :
    (hyperrectangle_glb [⟨0, 1⟩, ⟨0, 1⟩] [⟨0, 1⟩, ⟨2, 3⟩]).getD 0 dInt = ⟨1, -1⟩ ∧
    interval_glb ⟨0, 1⟩ ⟨0, 1⟩ = ⟨0, 1⟩ ∧
    (hyperrectangle_glb [⟨0, 1⟩, ⟨0, 1⟩] [⟨0, 1⟩, ⟨2, 3⟩]).getD 0 dInt ≠
      interval_glb ⟨0, 1⟩ ⟨0, 1⟩ := by
  refine ⟨?_, by decide, ?_⟩ <;> with_unfolding_all decide

/-- `getD` after `set` at the written index. -/
theorem getD_set_self {l : List Interval} {i : ℕ} {v : Interval}
    (h : i < l.length) : (l.set i v).getD i dInt = v := by
  rw [List.getD_eq_getElem _ _ (by simpa using h)]
  exact List.getElem_set_self _

/-- `getD` after `set` at another index. -/
theorem getD_set_ne {l : List Interval} {i j : ℕ} {v : Interval}
    (hne : i ≠ j) (h : j < l.length) :
    (l.set i v).getD j dInt = l.getD j dInt := by
  rw [List.getD_eq_getElem _ _ (by simpa using h),
    List.getD_eq_getElem _ _ h]
  exact List.getElem_set_ne hne _

/-- Unfolding one iteration of the glb loop. -/
theorem glb_loop_succ (x y : Hyperrectangle) (k : ℕ) :
    glb_loop x y (k + 1) =
      hyperrectangle_glb_step x y (glb_loop x y k) k := by
  unfold glb_loop
  rw [List.range_succ, List.foldl_append, List.foldl_cons, List.foldl_nil]

/-- Invariant of the `hyperrectangle_glb` loop after `k` iterations:
components `1 ≤ j < k` hold the componentwise glb, component `0` holds
the componentwise glb unless some processed component went bottom (then
it holds the sentinel `⟨1,-1⟩`), and unprocessed components still hold
the initial buffer value. -/
theorem glb_loop_invariant (x y : Hyperrectangle) :
    ∀ k,
      (glb_loop x y k).length = x.length ∧
      (∀ j, 1 ≤ j → j < k → j < x.length →
        (glb_loop x y k).getD j dInt =
          interval_glb (x.getD j dInt) (y.getD j dInt)) ∧
      ((∃ j, j < k ∧ j < x.length ∧
          interval_is_bottom
            (interval_glb (x.getD j dInt) (y.getD j dInt)) = true) →
        0 < x.length → (glb_loop x y k).getD 0 dInt = ⟨1, -1⟩) ∧
      (0 < k → 0 < x.length →
        (∀ j, j < k → j < x.length →
          interval_is_bottom
            (interval_glb (x.getD j dInt) (y.getD j dInt)) = false) →
        (glb_loop x y k).getD 0 dInt =
          interval_glb (x.getD 0 dInt) (y.getD 0 dInt)) ∧
      (∀ j, k ≤ j → j < x.length → (glb_loop x y k).getD j dInt = dInt) := by
  intro k
  induction k with
  | zero =>
    refine ⟨by simp [glb_loop], ?_, ?_, ?_, ?_⟩
    · intro j h1 h0 _; omega
    · rintro ⟨j, hj0, _, _⟩ _; omega
    · intro h0; omega
    · intro j _ hj
      unfold glb_loop
      simp only [List.range_zero, List.foldl_nil]
      rw [List.getD_eq_getElem _ _ (by simpa using hj)]
      exact List.getElem_replicate _ _
  | succ k ih =>
    obtain ⟨ihlen, ihmid, ihbot, ihok, ihrest⟩ := ih
    by_cases hk : k < x.length
    · -- iteration k writes component k
      have hklen : k < (glb_loop x y k).length := by rw [ihlen]; exact hk
      have hset :
          ((glb_loop x y k).set k
            (interval_glb (x.getD k dInt) (y.getD k dInt))).getD k dInt =
          interval_glb (x.getD k dInt) (y.getD k dInt) :=
        getD_set_self hklen
      rw [glb_loop_succ]
      unfold hyperrectangle_glb_step
      rw [hset]
      by_cases hbk :
          interval_is_bottom
            (interval_glb (x.getD k dInt) (y.getD k dInt)) = true
      · rw [if_pos hbk]
        have hlen2 :
            (((glb_loop x y k).set k
              (interval_glb (x.getD k dInt) (y.getD k dInt))).set 0
                ⟨1, -1⟩).length = x.length := by
          simp [List.length_set, ihlen]
        refine ⟨hlen2, ?_, ?_, ?_, ?_⟩
        · intro j h1 hjk1 hjx
          have hj0 : (0 : ℕ) ≠ j := by omega
          rw [getD_set_ne hj0 (by simp [List.length_set, ihlen]; exact hjx)]
          rcases Nat.lt_or_ge j k with hjk | hjk
          · rw [getD_set_ne (by omega) (by rw [ihlen]; exact hjx)]
            exact ihmid j h1 hjk hjx
          · have hjeq : j = k := by omega
            subst hjeq
            exact hset
        · intro _ h0
          exact getD_set_self (by simp [List.length_set, ihlen]; exact h0)
        · intro _ h0 hall
          have h1 := hall k (by omega) hk
          rw [h1] at hbk
          exact absurd hbk (by decide)
        · intro j hkj hjx
          rw [getD_set_ne (by omega) (by simp [List.length_set, ihlen]; exact hjx),
            getD_set_ne (by omega) (by rw [ihlen]; exact hjx)]
          exact ihrest j (by omega) hjx
      · rw [if_neg hbk]
        have hbkf :
            interval_is_bottom
              (interval_glb (x.getD k dInt) (y.getD k dInt)) = false := by
          cases hc : interval_is_bottom
              (interval_glb (x.getD k dInt) (y.getD k dInt)) with
          | false => rfl
          | true => exact absurd hc hbk
        have hlen2 :
            ((glb_loop x y k).set k
              (interval_glb (x.getD k dInt) (y.getD k dInt))).length =
            x.length := by
          simp [List.length_set, ihlen]
        refine ⟨hlen2, ?_, ?_, ?_, ?_⟩
        · intro j h1 hjk1 hjx
          rcases Nat.lt_or_ge j k with hjk | hjk
          · rw [getD_set_ne (by omega) (by rw [ihlen]; exact hjx)]
            exact ihmid j h1 hjk hjx
          · have hjeq : j = k := by omega
            subst hjeq
            exact hset
        · rintro ⟨j, hjk1, hjx, hbj⟩ h0
          have hjk : j < k := by
            rcases Nat.lt_or_ge j k with h | h
            · exact h
            · have hjeq : j = k := by omega
              rw [hjeq, hbkf] at hbj
              exact absurd hbj (by decide)
          by_cases hk0 : k = 0
          · omega
          · rw [getD_set_ne (by omega) (by rw [ihlen]; exact h0)]
            exact ihbot ⟨j, hjk, hjx, hbj⟩ h0
        · intro _ h0 hall
          by_cases hk0 : k = 0
          · subst hk0
            exact getD_set_self (by rw [ihlen]; exact h0)
          · rw [getD_set_ne (by omega) (by rw [ihlen]; exact h0)]
            exact ihok (by omega) h0
              (fun j hjk hjx => hall j (by omega) hjx)
        · intro j hkj hjx
          rw [getD_set_ne (by omega) (by rw [ihlen]; exact hjx)]
          exact ihrest j (by omega) hjx
    · -- iteration k writes outside the buffer: `set` is the identity
      have hkk : (glb_loop x y k).set k
          (interval_glb (x.getD k dInt) (y.getD k dInt)) = glb_loop x y k := by
        apply List.set_eq_of_length_le
        rw [ihlen]; omega
      rw [glb_loop_succ]
      unfold hyperrectangle_glb_step
      rw [hkk]
      have hgetk : (glb_loop x y k).getD k dInt = dInt := by
        apply List.getD_eq_default
        rw [ihlen]; omega
      rw [hgetk]
      have hbd : interval_is_bottom dInt = false := by decide
      rw [hbd]
      simp only [Bool.false_eq_true, if_false]
      refine ⟨ihlen, ?_, ?_, ?_, ?_⟩
      · intro j h1 hjk1 hjx
        exact ihmid j h1 (by omega) hjx
      · rintro ⟨j, hjk1, hjx, hbj⟩ h0
        exact ihbot ⟨j, by omega, hjx, hbj⟩ h0
      · intro _ h0 hall
        have hkpos : 0 < k := by omega
        exact ihok hkpos h0 (fun j hjk hjx => hall j (by omega) hjx)
      · intro j hkj hjx
        exact ihrest j (by omega) hjx

/-- C8 amended: `hyperrectangle_add`, `hyperrectangle_sub`,
`hyperrectangle_mul` and `hyperrectangle_lub` are componentwise at every
index; `hyperrectangle_glb` is componentwise at every index `i ≥ 1`,
while its component `0` equals the componentwise glb only when no
component intersection is empty, and otherwise is overwritten with the
bottom sentinel `⟨1,-1⟩` (making the whole result bottom). -/
theorem C8_amended_componentwise (x y : Hyperrectangle) (i : ℕ)
    (hlen : x.length = y.length) (hi : i < x.length) :
    (hyperrectangle_add x y).getD i dInt =
      interval_add (x.getD i dInt) (y.getD i dInt) ∧
    (hyperrectangle_sub x y).getD i dInt =
      interval_sub (x.getD i dInt) (y.getD i dInt) ∧
    (hyperrectangle_mul x y).getD i dInt =
      interval_mul (x.getD i dInt) (y.getD i dInt) ∧
    (hyperrectangle_lub x y).getD i dInt =
      interval_lub (x.getD i dInt) (y.getD i dInt) ∧
    (1 ≤ i → (hyperrectangle_glb x y).getD i dInt =
      interval_glb (x.getD i dInt) (y.getD i dInt)) ∧
    ((∃ j, j < x.length ∧
        interval_is_bottom
          (interval_glb (x.getD j dInt) (y.getD j dInt)) = true) →
      (hyperrectangle_glb x y).getD 0 dInt = ⟨1, -1⟩) ∧
    ((∀ j, j < x.length →
        interval_is_bottom
          (interval_glb (x.getD j dInt) (y.getD j dInt)) = false) →
      (hyperrectangle_glb x y).getD 0 dInt =
        interval_glb (x.getD 0 dInt) (y.getD 0 dInt)) := by
  have hzip :
      ∀ f : Interval → Interval → Interval,
        (List.zipWith f x y).getD i dInt =
          f (x.getD i dInt) (y.getD i dInt) := by
    intro f
    have hiy : i < y.length := hlen ▸ hi
    have hiz : i < (List.zipWith f x y).length := by
      rw [List.length_zipWith, ← hlen, min_self]; exact hi
    rw [List.getD_eq_getElem _ _ hiz, List.getD_eq_getElem _ _ hi,
      List.getD_eq_getElem _ _ hiy]
    exact List.getElem_zipWith
  have hglb : hyperrectangle_glb x y = glb_loop x y x.length := rfl
  obtain ⟨hl, hmid, hbot, hok, _⟩ := glb_loop_invariant x y x.length
  refine ⟨hzip interval_add, hzip interval_sub, hzip interval_mul,
    hzip interval_lub, ?_, ?_, ?_⟩
  · intro h1
    rw [hglb]
    exact hmid i h1 hi hi
  · rintro ⟨j, hjx, hbj⟩
    rw [hglb]
    exact hbot ⟨j, hjx, hjx, hbj⟩ (by omega)
  · intro hall
    rw [hglb]
    exact hok (by omega) (by omega) (fun j hj _ => hall j hj)

/-- C8 amended witness: the componentwise characterisation instantiated
at concrete two-dimensional hyperrectangles and index `1`. -/
theorem C8_amended_componentwise_witness :
    ((hyperrectangle_add [⟨0, 1⟩, ⟨0, 2⟩] [⟨0, 1⟩, ⟨1, 3⟩]).getD 1 dInt =
      interval_add ⟨0, 2⟩ ⟨1, 3⟩ ∧
    (hyperrectangle_sub [⟨0, 1⟩, ⟨0, 2⟩] [⟨0, 1⟩, ⟨1, 3⟩]).getD 1 dInt =
      interval_sub ⟨0, 2⟩ ⟨1, 3⟩ ∧
    (hyperrectangle_mul [⟨0, 1⟩, ⟨0, 2⟩] [⟨0, 1⟩, ⟨1, 3⟩]).getD 1 dInt =
      interval_mul ⟨0, 2⟩ ⟨1, 3⟩ ∧
    (hyperrectangle_lub [⟨0, 1⟩, ⟨0, 2⟩] [⟨0, 1⟩, ⟨1, 3⟩]).getD 1 dInt =
      interval_lub ⟨0, 2⟩ ⟨1, 3⟩ ∧
    (1 ≤ 1 → (hyperrectangle_glb [⟨0, 1⟩, ⟨0, 2⟩] [⟨0, 1⟩, ⟨1, 3⟩]).getD 1 dInt =
      interval_glb ⟨0, 2⟩ ⟨1, 3⟩) ∧
    ((∃ j, j < ([⟨0, 1⟩, ⟨0, 2⟩] : Hyperrectangle).length ∧
        interval_is_bottom
          (interval_glb (([⟨0, 1⟩, ⟨0, 2⟩] : Hyperrectangle).getD j dInt)
            (([⟨0, 1⟩, ⟨1, 3⟩] : Hyperrectangle).getD j dInt)) = true) →
      (hyperrectangle_glb [⟨0, 1⟩, ⟨0, 2⟩] [⟨0, 1⟩, ⟨1, 3⟩]).getD 0 dInt =
        ⟨1, -1⟩) ∧
    ((∀ j, j < ([⟨0, 1⟩, ⟨0, 2⟩] : Hyperrectangle).length →
        interval_is_bottom
          (interval_glb (([⟨0, 1⟩, ⟨0, 2⟩] : Hyperrectangle).getD j dInt)
            (([⟨0, 1⟩, ⟨1, 3⟩] : Hyperrectangle).getD j dInt)) = false) →
      (hyperrectangle_glb [⟨0, 1⟩, ⟨0, 2⟩] [⟨0, 1⟩, ⟨1, 3⟩]).getD 0 dInt =
        interval_glb ⟨0, 1⟩ ⟨0, 1⟩)) := by
  have h := C8_amended_componentwise [⟨0, 1⟩, ⟨0, 2⟩] [⟨0, 1⟩, ⟨1, 3⟩] 1
    (by decide) (by decide)
  simpa using h

/-- C6: tier preservation fails.  Start from a state satisfying the
claimed invariant for group `1` of features `{0,1,2}`: features `0,2` are
`[0,0]`, feature `1` is `[1,1]`, so the group sum is `[1,1] ⊆ [0,1]` and
exactly one feature has positive lowerbound.  Turning feature `0` off
(it already is) makes `adjust_tier` force feature `0` to `[1,1]`: at
`j = 2` the counters reach `n_members = 3, n_off = 2` and the mid-loop
check fires with the stale `candidate = 2 * (1 - 1) = 0`.  Afterwards the
group sum is `[2,2] ⊄ [0,1]` and two features have lowerbound `> 0`,
although feature `1` was never `[0,0]`. -/
theorem C6_adjust_tier_breaks_tier_invariant :
    tier_group_sum [⟨0, 0⟩, ⟨1, 1⟩, ⟨0, 0⟩] [1, 1, 1] 1 = ⟨1, 1⟩ ∧
    adjust_tier [⟨0, 0⟩, ⟨1, 1⟩, ⟨0, 0⟩] [1, 1, 1] 0 false =
      [⟨1, 1⟩, ⟨1, 1⟩, ⟨0, 0⟩] ∧
    tier_group_sum [⟨1, 1⟩, ⟨1, 1⟩, ⟨0, 0⟩] [1, 1, 1] 1 = ⟨2, 2⟩ ∧
    ¬ ((0 : ℚ) ≤ (tier_group_sum [⟨1, 1⟩, ⟨1, 1⟩, ⟨0, 0⟩] [1, 1, 1] 1).l ∧
        (tier_group_sum [⟨1, 1⟩, ⟨1, 1⟩, ⟨0, 0⟩] [1, 1, 1] 1).u ≤ 1) ∧
    (0 : ℚ) <
      ((adjust_tier [⟨0, 0⟩, ⟨1, 1⟩, ⟨0, 0⟩] [1, 1, 1] 0 false).getD 0
        dInt).l ∧
    (0 : ℚ) <
      ((adjust_tier [⟨0, 0⟩, ⟨1, 1⟩, ⟨0, 0⟩] [1, 1, 1] 0 false).getD 1
        dInt).l ∧
    ¬ (([⟨0, 0⟩, ⟨1, 1⟩, ⟨0, 0⟩] : Hyperrectangle).getD 1 dInt = ⟨0, 0⟩) := by
  refine ⟨?_, ?_, ?_, ?_, ?_, ?_, ?_⟩ <;> with_unfolding_all decide

/-- C9 counterexample: no FIFO tie-breaking.  Push payload `100` with
priority `1`, then `200` with priority `2`, then `300` with priority `1`.
The first pop returns `200` (the maximum), but the second pop returns
`300`, although `100` was pushed before `300` with the same priority —
the max-heap breaks priority ties by heap shape, not insertion order. -/
theorem C9_no_fifo_tie_breaking :
    (binary_heap_pop
      (binary_heap_push
        (binary_heap_push
          (binary_heap_push (priority_queue_create ℕ) 100 1) 200 2)
        300 1)).1 = 200 ∧
    (binary_heap_pop
      (binary_heap_pop
        (binary_heap_push
          (binary_heap_push
            (binary_heap_push (priority_queue_create ℕ) 100 1) 200 2)
          300 1)).2).1 = 300 := by
  refine ⟨?_, ?_⟩ <;> with_unfolding_all decide

section HeapProofs

variable {α : Type} [Inhabited α]

/-- `getD` after `set` at the written index (generic element type). -/
theorem getD_set_self' {β : Type} {l : List β} {i : ℕ} {v d : β}
    (h : i < l.length) : (l.set i v).getD i d = v := by
  rw [List.getD_eq_getElem _ _ (by simpa using h)]
  exact List.getElem_set_self _

/-- `getD` after `set` at another index (generic element type). -/
theorem getD_set_ne' {β : Type} {l : List β} {i j : ℕ} {v d : β}
    (hne : i ≠ j) : (l.set i v).getD j d = l.getD j d := by
  by_cases hj : j < l.length
  · rw [List.getD_eq_getElem _ _ (by simpa using hj),
      List.getD_eq_getElem _ _ hj]
    exact List.getElem_set_ne hne _
  · rw [List.getD_eq_default _ _ (by simpa using not_lt.mp hj),
      List.getD_eq_default _ _ (not_lt.mp hj)]

theorem swap_nodes_length (nodes : List (α × ℚ)) (i j : ℕ) :
    (swap_nodes nodes i j).length = nodes.length := by
  simp [swap_nodes]

theorem getD_swap_fst (nodes : List (α × ℚ)) {i : ℕ} (j : ℕ)
    (hi : i < nodes.length) :
    (swap_nodes nodes i j).getD i (default, 0) =
      nodes.getD j (default, 0) := by
  unfold swap_nodes
  by_cases hij : i = j
  · subst hij
    exact getD_set_self' (by simpa using hi)
  · rw [getD_set_ne' (fun h => hij h.symm)]
    exact getD_set_self' hi

theorem getD_swap_snd (nodes : List (α × ℚ)) (i : ℕ) {j : ℕ}
    (hj : j < nodes.length) :
    (swap_nodes nodes i j).getD j (default, 0) =
      nodes.getD i (default, 0) := by
  unfold swap_nodes
  exact getD_set_self' (by simpa using hj)

theorem getD_swap_other (nodes : List (α × ℚ)) {i j k : ℕ}
    (hki : k ≠ i) (hkj : k ≠ j) :
    (swap_nodes nodes i j).getD k (default, 0) =
      nodes.getD k (default, 0) := by
  unfold swap_nodes
  rw [getD_set_ne' (fun h => hkj h.symm), getD_set_ne' (fun h => hki h.symm)]

/-- A true local heap property at a non-root node of a max-heap. -/
theorem heap_property_local_max_true {H : BinaryHeap α}
    (ht : H.type = HEAP_MAX) {i : ℕ} (h0 : i ≠ 0)
    (h : heap_property_local H i = true) :
    heap_key H i ≤ heap_key H (index_of_parent i) := by
  unfold heap_property_local at h
  rw [if_neg h0, ht] at h
  simpa using of_decide_eq_true h

/-- A false local heap property at a node of a max-heap. -/
theorem heap_property_local_max_false {H : BinaryHeap α}
    (ht : H.type = HEAP_MAX) {i : ℕ}
    (h : heap_property_local H i = false) :
    i ≠ 0 ∧ heap_key H (index_of_parent i) < heap_key H i := by
  unfold heap_property_local at h
  by_cases h0 : i = 0
  · rw [if_pos h0] at h
    exact absurd h (by simp)
  · rw [if_neg h0, ht] at h
    refine ⟨h0, ?_⟩
    simpa [not_le] using of_decide_eq_false h

/-- Correctness of the `sift_up` loop on a max-heap: from the sift-up
invariant, enough fuel produces the max-heap property below `n`, leaving
`size`, `type` and the array length unchanged. -/
theorem sift_up_fuel_correct :
    ∀ (fuel : ℕ) (H : BinaryHeap α) (n i : ℕ),
      H.type = HEAP_MAX → i < fuel → i < n → n ≤ H.nodes.length →
      max_heap_except_up H n i →
      max_heap_upto (sift_up_fuel fuel H i) n ∧
      (sift_up_fuel fuel H i).size = H.size ∧
      (sift_up_fuel fuel H i).type = H.type ∧
      (sift_up_fuel fuel H i).nodes.length = H.nodes.length := by
  intro fuel
  induction fuel with
  | zero => intro H n i _ hif _ _ _; omega
  | succ fuel ih =>
    intro H n i ht hif hin hlen hexc
    rw [sift_up_fuel]
    by_cases hp : heap_property_local H i = true
    · rw [if_pos hp]
      refine ⟨?_, rfl, rfl, rfl⟩
      intro j hj0 hjn
      by_cases hji : j = i
      · subst hji
        exact heap_property_local_max_true ht (by omega) hp
      · exact hexc.1 j hj0 hjn hji
    · rw [if_neg hp]
      obtain ⟨hi0, hlt⟩ :=
        heap_property_local_max_false ht (eq_false_of_ne_true hp)
      have hpi : index_of_parent i < i := by
        unfold index_of_parent; omega
      have hilen : i < H.nodes.length := by omega
      have hplen : index_of_parent i < H.nodes.length := by omega
      have kp : heap_key
          { H with nodes := swap_nodes H.nodes i (index_of_parent i) }
          (index_of_parent i) = heap_key H i := by
        unfold heap_key
        simp only []
        rw [getD_swap_snd _ _ hplen]
      have ki : heap_key
          { H with nodes := swap_nodes H.nodes i (index_of_parent i) } i =
          heap_key H (index_of_parent i) := by
        unfold heap_key
        simp only []
        rw [getD_swap_fst _ _ hilen]
      have kother : ∀ k, k ≠ i → k ≠ index_of_parent i →
          heap_key
            { H with nodes := swap_nodes H.nodes i (index_of_parent i) } k =
          heap_key H k := by
        intro k hki hkp
        unfold heap_key
        simp only []
        rw [getD_swap_other _ hki hkp]
      have hexc2 : max_heap_except_up
          { H with nodes := swap_nodes H.nodes i (index_of_parent i) } n
          (index_of_parent i) := by
        constructor
        · intro j hj0 hjn hjp
          by_cases hji : j = i
          · subst hji
            rw [ki, kp]
            exact le_of_lt hlt
          · by_cases hpj : index_of_parent j = i
            · rw [kother j hji hjp, hpj, ki]
              exact hexc.2 j hj0 hjn hpj (by omega)
            · by_cases hpjp : index_of_parent j = index_of_parent i
              · rw [kother j hji hjp, hpjp, kp]
                have h1 := hexc.1 j hj0 hjn hji
                rw [hpjp] at h1
                exact le_trans h1 (le_of_lt hlt)
              · rw [kother j hji hjp, kother _ hpj hpjp]
                exact hexc.1 j hj0 hjn hji
        · intro c hc0 hcn hpc hp0
          have hppne : index_of_parent (index_of_parent i) ≠ i := by
            have : index_of_parent (index_of_parent i) < i := by
              unfold index_of_parent at *; omega
            omega
          have hpppne :
              index_of_parent (index_of_parent i) ≠ index_of_parent i := by
            unfold index_of_parent at *; omega
          rw [kother _ hppne hpppne]
          by_cases hci : c = i
          · subst hci
            rw [ki]
            exact hexc.1 (index_of_parent c) hp0 (by omega)
              (by omega)
          · have hcp : c ≠ index_of_parent i := by
              intro hcp
              rw [hcp] at hpc
              unfold index_of_parent at hpc hp0
              omega
            rw [kother c hci hcp]
            exact le_trans
              (by
                have := hexc.1 c hc0 hcn hci
                rw [hpc] at this
                exact this)
              (hexc.1 (index_of_parent i) hp0 (by omega) (by omega))
      have hres := ih
        { H with nodes := swap_nodes H.nodes i (index_of_parent i) } n
        (index_of_parent i) ht (by omega) (by omega)
        (by rw [swap_nodes_length]; exact hlen) hexc2
      refine ⟨hres.1, ?_, ?_, ?_⟩
      · rw [hres.2.1]
      · rw [hres.2.2.1]
      · rw [hres.2.2.2, swap_nodes_length]

theorem index_of_parent_left (i : ℕ) : index_of_parent (2 * i + 1) = i := by
  unfold index_of_parent; omega

theorem index_of_parent_right (i : ℕ) : index_of_parent (2 * i + 2) = i := by
  unfold index_of_parent; omega

/-- Elimination of a true `is_restored` check. -/
theorem heap_is_restored_true_elim {H : BinaryHeap α} {i : ℕ}
    (h : heap_is_restored H i = true) :
    (2 * i + 1 < H.size → heap_property_local H (2 * i + 1) = true) ∧
    (2 * i + 2 < H.size → heap_property_local H (2 * i + 2) = true) := by
  unfold heap_is_restored at h
  simp only [Bool.and_eq_true, Bool.or_eq_true, Bool.not_eq_true',
    decide_eq_false_iff_not] at h
  constructor
  · intro hl
    rcases h.1 with h1 | h1
    · exact absurd hl h1
    · exact h1
  · intro hr
    rcases h.2 with h2 | h2
    · exact absurd hr h2
    · exact h2

/-- Elimination of a false `is_restored` check: the left child is in
range, and at least one in-range child violates the heap property. -/
theorem heap_is_restored_false_elim {H : BinaryHeap α} {i : ℕ}
    (h : heap_is_restored H i = false) :
    2 * i + 1 < H.size ∧
    (heap_property_local H (2 * i + 1) = false ∨
      (2 * i + 2 < H.size ∧ heap_property_local H (2 * i + 2) = false)) := by
  unfold heap_is_restored at h
  by_cases h1 : 2 * i + 1 < H.size
  · rw [decide_eq_true h1] at h
    simp only [Bool.not_true, Bool.false_or] at h
    by_cases h2 : 2 * i + 2 < H.size
    · rw [decide_eq_true h2] at h
      simp only [Bool.not_true, Bool.false_or] at h
      refine ⟨h1, ?_⟩
      cases hp1 : heap_property_local H (2 * i + 1) with
      | false => exact Or.inl rfl
      | true =>
        cases hp2 : heap_property_local H (2 * i + 2) with
        | false => exact Or.inr ⟨h2, rfl⟩
        | true =>
          rw [hp1, hp2] at h
          exact absurd h (by decide)
    · rw [decide_eq_false h2] at h
      simp only [Bool.not_false, Bool.true_or, Bool.and_true] at h
      exact ⟨h1, Or.inl h⟩
  · exfalso
    rw [decide_eq_false h1] at h
    simp only [Bool.not_false, Bool.true_or, Bool.true_and] at h
    by_cases h2 : 2 * i + 2 < H.size
    · omega
    · rw [decide_eq_false h2] at h
      simp only [Bool.not_false, Bool.true_or] at h
      exact absurd h (by decide)

/-- Correctness of the `sift_down` loop on a max-heap.  The hypothesis
`heap_key H H.size = heap_key H i` records that the cell just past the
live region (read by `chose_child` when the right child index equals
`size`) holds a copy of the element being sifted, which is exactly the
situation in which `binary_heap_pop` runs the loop. -/
theorem sift_down_fuel_correct :
    ∀ (fuel : ℕ) (H : BinaryHeap α) (i : ℕ),
      H.type = HEAP_MAX →
      H.size < H.nodes.length →
      H.size + 1 ≤ fuel + i →
      max_heap_except_down H i →
      heap_key H H.size = heap_key H i →
      max_heap_prop (sift_down_fuel fuel H i) ∧
      (sift_down_fuel fuel H i).size = H.size ∧
      (sift_down_fuel fuel H i).type = H.type ∧
      (sift_down_fuel fuel H i).nodes.length = H.nodes.length := by
  intro fuel
  induction fuel with
  | zero =>
    intro H i ht hlen hfuel hexc hstale
    rw [show sift_down_fuel 0 H i = H from rfl]
    refine ⟨?_, rfl, rfl, rfl⟩
    intro j hj0 hjs
    refine hexc.1 j hj0 hjs ?_
    have hpj : index_of_parent j < j := by unfold index_of_parent; omega
    omega
  | succ fuel ih =>
    intro H i ht hlen hfuel hexc hstale
    rw [sift_down_fuel]
    by_cases hr : heap_is_restored H i = true
    · rw [if_pos hr]
      refine ⟨?_, rfl, rfl, rfl⟩
      obtain ⟨hrl, hrr⟩ := heap_is_restored_true_elim hr
      intro j hj0 hjs
      by_cases hpj : index_of_parent j = i
      · have hj12 : j = 2 * i + 1 ∨ j = 2 * i + 2 := by
          unfold index_of_parent at hpj
          omega
        rcases hj12 with hj1 | hj1
        · subst hj1
          exact heap_property_local_max_true ht (by omega) (hrl hjs)
        · subst hj1
          exact heap_property_local_max_true ht (by omega) (hrr hjs)
      · exact hexc.1 j hj0 hjs hpj
    · rw [if_neg hr]
      obtain ⟨hL, hviol⟩ :=
        heap_is_restored_false_elim (eq_false_of_ne_true hr)
      have hisz : i < H.size := by omega
      -- the chosen child is in the live region, strictly dominates the
      -- cursor, and dominates the other in-range child
      have hmain :
          chose_child H (2 * i + 1) (2 * i + 2) < H.size ∧
          heap_key H i < heap_key H (chose_child H (2 * i + 1) (2 * i + 2)) ∧
          (∀ c, (c = 2 * i + 1 ∨ c = 2 * i + 2) → c < H.size →
            heap_key H c ≤
              heap_key H (chose_child H (2 * i + 1) (2 * i + 2))) := by
        unfold chose_child
        rw [ht]
        by_cases hR : 2 * i + 2 < H.size
        · by_cases hcmp : heap_key H (2 * i + 1) > heap_key H (2 * i + 2)
          · rw [if_pos hcmp]
            refine ⟨hL, ?_, ?_⟩
            · rcases hviol with hv | hv
              · have h2 := (heap_property_local_max_false ht hv).2
                rwa [index_of_parent_left] at h2
              · have h2 := (heap_property_local_max_false ht hv.2).2
                rw [index_of_parent_right] at h2
                exact lt_trans h2 hcmp
            · intro c hc _
              rcases hc with hc | hc <;> subst hc
              · exact le_refl _
              · exact le_of_lt hcmp
          · rw [if_neg hcmp]
            refine ⟨hR, ?_, ?_⟩
            · rcases hviol with hv | hv
              · have h2 := (heap_property_local_max_false ht hv).2
                rw [index_of_parent_left] at h2
                exact lt_of_lt_of_le h2 (not_lt.mp hcmp)
              · have h2 := (heap_property_local_max_false ht hv.2).2
                rwa [index_of_parent_right] at h2
            · intro c hc _
              rcases hc with hc | hc <;> subst hc
              · exact not_lt.mp hcmp
              · exact le_refl _
        · -- the right child index equals `size`: the comparison reads the
          -- stale copy of the cursor element, and the violating left
          -- child is chosen
          have hReq : 2 * i + 2 = H.size := by omega
          have hv : heap_property_local H (2 * i + 1) = false := by
            rcases hviol with hv | hv
            · exact hv
            · exact absurd hv.1 hR
          have hlti := (heap_property_local_max_false ht hv).2
          rw [index_of_parent_left] at hlti
          have hkey2 : heap_key H (2 * i + 2) = heap_key H i := by
            rw [hReq]; exact hstale
          have hcmp : heap_key H (2 * i + 1) > heap_key H (2 * i + 2) := by
            rw [hkey2]; exact hlti
          rw [if_pos hcmp]
          refine ⟨hL, hlti, ?_⟩
          intro c hc hcs
          rcases hc with hc | hc <;> subst hc
          · exact le_refl _
          · omega
      obtain ⟨hs_lt, hs_gt, hs_dom⟩ := hmain
      have hs12 : chose_child H (2 * i + 1) (2 * i + 2) = 2 * i + 1 ∨
          chose_child H (2 * i + 1) (2 * i + 2) = 2 * i + 2 := by
        unfold chose_child
        rw [ht]
        by_cases hcmp : heap_key H (2 * i + 1) > heap_key H (2 * i + 2)
        · rw [if_pos hcmp]; exact Or.inl rfl
        · rw [if_neg hcmp]; exact Or.inr rfl
      set s := chose_child H (2 * i + 1) (2 * i + 2) with hsdef
      have his : i < s := by omega
      have hps : index_of_parent s = i := by
        rcases hs12 with h | h <;> rw [h]
        · exact index_of_parent_left i
        · exact index_of_parent_right i
      have hslen : s < H.nodes.length := by omega
      have hilen2 : i < H.nodes.length := by omega
      have ks' : heap_key { H with nodes := swap_nodes H.nodes i s } s =
          heap_key H i := by
        unfold heap_key
        simp only []
        rw [getD_swap_snd _ _ hslen]
      have ki' : heap_key { H with nodes := swap_nodes H.nodes i s } i =
          heap_key H s := by
        unfold heap_key
        simp only []
        rw [getD_swap_fst _ _ hilen2]
      have koth : ∀ k, k ≠ i → k ≠ s →
          heap_key { H with nodes := swap_nodes H.nodes i s } k =
            heap_key H k := by
        intro k hki hks
        unfold heap_key
        simp only []
        rw [getD_swap_other _ hki hks]
      have hexc2 : max_heap_except_down
          { H with nodes := swap_nodes H.nodes i s } s := by
        constructor
        · intro j hj0 hjs hpjs
          by_cases hjs' : j = s
          · rw [hjs', ks', hps, ki']
            exact le_of_lt hs_gt
          · by_cases hji : j = i
            · rw [hji] at hj0 ⊢
              have hpij : index_of_parent i < i := by
                unfold index_of_parent; omega
              rw [ki', koth (index_of_parent i) (by omega) (by omega)]
              exact hexc.2 s (by omega) hs_lt hps hj0
            · by_cases hpji : index_of_parent j = i
              · have hpji' := hpji
                unfold index_of_parent at hpji'
                have hj12 : j = 2 * i + 1 ∨ j = 2 * i + 2 := by omega
                rw [koth j hji hjs', hpji, ki']
                exact hs_dom j hj12 hjs
              · rw [koth j hji hjs', koth (index_of_parent j) hpji hpjs]
                exact hexc.1 j hj0 hjs hpji
        · intro c hc0 hcs hpc hs0
          have hpc' := hpc
          unfold index_of_parent at hpc'
          have hcne_s : c ≠ s := by omega
          have hcne_i : c ≠ i := by omega
          rw [koth c hcne_i hcne_s, hps, ki']
          have h1 := hexc.1 c hc0 hcs (by rw [hpc]; omega)
          rw [hpc] at h1
          exact h1
      have hstale2 : heap_key { H with nodes := swap_nodes H.nodes i s }
          H.size = heap_key { H with nodes := swap_nodes H.nodes i s } s := by
        rw [ks', koth H.size (by omega) (by omega)]
        exact hstale
      have hswlen : (swap_nodes H.nodes i s).length = H.nodes.length :=
        swap_nodes_length H.nodes i s
      have hres := ih { H with nodes := swap_nodes H.nodes i s } s ht
        (by
          show H.size < (swap_nodes H.nodes i s).length
          rw [hswlen]; exact hlen)
        (by
          show H.size + 1 ≤ fuel + s
          omega)
        hexc2 hstale2
      refine ⟨hres.1, ?_, ?_, ?_⟩
      · rw [hres.2.1]
      · rw [hres.2.2.1]
      · rw [hres.2.2.2]
        exact hswlen

/-- `getD` into the left part of an appended list. -/
theorem getD_append_left {β : Type} {l : List β} {e d : β} {j : ℕ}
    (h : j < l.length) : (l ++ [e]).getD j d = l.getD j d := by
  rw [List.getD_eq_getElem _ _ (by simp; omega), List.getD_eq_getElem _ _ h]
  exact List.getElem_append_left h

/-- The sift-up run by a push establishes the max-heap property on the
enlarged live region, for any backing array agreeing with the old one on
the live prefix. -/
theorem push_core (H : BinaryHeap α) (nodes1 : List (α × ℚ))
    (ht : H.type = HEAP_MAX)
    (hlen1 : H.size + 1 ≤ nodes1.length)
    (hkeep : ∀ j, j < H.size →
      nodes1.getD j (default, 0) = H.nodes.getD j (default, 0))
    (hheap : max_heap_prop H) :
    max_heap_upto (sift_up { H with nodes := nodes1 } H.size)
      (H.size + 1) ∧
    (sift_up { H with nodes := nodes1 } H.size).size = H.size ∧
    (sift_up { H with nodes := nodes1 } H.size).type = H.type ∧
    (sift_up { H with nodes := nodes1 } H.size).nodes.length =
      nodes1.length := by
  apply sift_up_fuel_correct (H.size + 1) { H with nodes := nodes1 }
    (H.size + 1) H.size ht (by omega) (by omega) hlen1
  constructor
  · intro j hj0 hjn hji
    have hj : j < H.size := by omega
    have hpj : index_of_parent j < j := by unfold index_of_parent; omega
    unfold heap_key
    simp only []
    rw [hkeep j hj, hkeep (index_of_parent j) (by omega)]
    exact hheap j hj0 hj
  · intro c hc0 hcn hpc hi0
    unfold index_of_parent at hpc
    omega

/-- A push on a max-heap preserves the heap invariant and grows the live
region by one. -/
theorem binary_heap_push_inv (H : BinaryHeap α) (x : α) (k : ℚ)
    (ht : H.type = HEAP_MAX) (hsz : H.size ≤ H.nodes.length)
    (hheap : max_heap_prop H) :
    max_heap_prop (binary_heap_push H x k) ∧
    (binary_heap_push H x k).size = H.size + 1 ∧
    (binary_heap_push H x k).type = HEAP_MAX ∧
    (binary_heap_push H x k).size ≤
      (binary_heap_push H x k).nodes.length := by
  unfold binary_heap_push
  by_cases hc : H.size < H.nodes.length
  · rw [if_pos hc]
    have hcore := push_core H (H.nodes.set H.size (x, k)) ht
      (by rw [List.length_set]; omega)
      (fun j hj => getD_set_ne' (by omega)) hheap
    refine ⟨?_, rfl, ?_, ?_⟩
    · intro j hj0 hjs
      exact hcore.1 j hj0 hjs
    · exact hcore.2.2.1.trans ht
    · show H.size + 1 ≤ _
      rw [show ({ sift_up { H with nodes := H.nodes.set H.size (x, k) }
        H.size with size := H.size + 1 } : BinaryHeap α).nodes.length =
        (sift_up { H with nodes := H.nodes.set H.size (x, k) }
          H.size).nodes.length from rfl, hcore.2.2.2, List.length_set]
      omega
  · rw [if_neg hc]
    have hc2 : H.size = H.nodes.length := by omega
    have hcore := push_core H (H.nodes ++ [(x, k)]) ht
      (by rw [List.length_append]; simp; omega)
      (fun j hj => getD_append_left (by omega)) hheap
    refine ⟨?_, rfl, ?_, ?_⟩
    · intro j hj0 hjs
      exact hcore.1 j hj0 hjs
    · exact hcore.2.2.1.trans ht
    · show H.size + 1 ≤ _
      rw [show ({ sift_up { H with nodes := H.nodes ++ [(x, k)] }
        H.size with size := H.size + 1 } : BinaryHeap α).nodes.length =
        (sift_up { H with nodes := H.nodes ++ [(x, k)] }
          H.size).nodes.length from rfl, hcore.2.2.2, List.length_append]
      simp
      omega

/-- A pop on a max-heap returns the root payload and preserves the heap
invariant on the shrunken live region. -/
theorem binary_heap_pop_inv (H : BinaryHeap α)
    (ht : H.type = HEAP_MAX) (hsz : H.size ≤ H.nodes.length)
    (hheap : max_heap_prop H) :
    max_heap_prop (binary_heap_pop H).2 ∧
    (binary_heap_pop H).2.size ≤ (binary_heap_pop H).2.nodes.length ∧
    (binary_heap_pop H).2.type = HEAP_MAX ∧
    (0 < H.size →
      (binary_heap_pop H).1 = (H.nodes.getD 0 (default, 0)).1) := by
  unfold binary_heap_pop
  by_cases h0 : H.size = 0
  · rw [if_pos h0]
    exact ⟨hheap, hsz, ht, fun h => absurd h (by omega)⟩
  · rw [if_neg h0]
    have hlive : 0 < H.nodes.length := by omega
    have hlen1 : ({ H with
        nodes := H.nodes.set 0 (H.nodes.getD (H.size - 1) (default, 0))
        size := H.size - 1 } : BinaryHeap α).size <
        ({ H with
          nodes := H.nodes.set 0 (H.nodes.getD (H.size - 1) (default, 0))
          size := H.size - 1 } : BinaryHeap α).nodes.length := by
      show H.size - 1 < (H.nodes.set 0 _).length
      rw [List.length_set]
      omega
    have hexc1 : max_heap_except_down
        ({ H with
          nodes := H.nodes.set 0 (H.nodes.getD (H.size - 1) (default, 0))
          size := H.size - 1 } : BinaryHeap α) 0 := by
      constructor
      · intro j hj0 hjs hpj
        have hpjlt : index_of_parent j < j := by
          unfold index_of_parent; omega
        have hpj0 : index_of_parent j ≠ 0 := hpj
        unfold heap_key
        simp only []
        rw [getD_set_ne' (by omega), getD_set_ne' (fun h => hpj0 h.symm)]
        exact hheap j hj0 (by
          have : j < H.size - 1 := hjs
          omega)
      · intro c hc0 hcs hpc h00
        omega
    have hstale1 : heap_key
        ({ H with
          nodes := H.nodes.set 0 (H.nodes.getD (H.size - 1) (default, 0))
          size := H.size - 1 } : BinaryHeap α)
        ({ H with
          nodes := H.nodes.set 0 (H.nodes.getD (H.size - 1) (default, 0))
          size := H.size - 1 } : BinaryHeap α).size =
        heap_key
        ({ H with
          nodes := H.nodes.set 0 (H.nodes.getD (H.size - 1) (default, 0))
          size := H.size - 1 } : BinaryHeap α) 0 := by
      show ((H.nodes.set 0 _).getD (H.size - 1) (default, 0)).2 =
        ((H.nodes.set 0 _).getD 0 (default, 0)).2
      rw [getD_set_self' hlive]
      by_cases hs1 : H.size - 1 = 0
      · rw [hs1, getD_set_self' hlive]
      · rw [getD_set_ne' (fun h => hs1 h.symm)]
    have hres := sift_down_fuel_correct
      (({ H with
        nodes := H.nodes.set 0 (H.nodes.getD (H.size - 1) (default, 0))
        size := H.size - 1 } : BinaryHeap α).size + 1)
      ({ H with
        nodes := H.nodes.set 0 (H.nodes.getD (H.size - 1) (default, 0))
        size := H.size - 1 } : BinaryHeap α) 0 ht hlen1 (by omega)
      hexc1 hstale1
    refine ⟨hres.1, ?_, hres.2.2.1.trans ht, fun _ => rfl⟩
    have h2 := hres.2.1
    have h4 := hres.2.2.2
    have h5 : ({ H with
        nodes := H.nodes.set 0 (H.nodes.getD (H.size - 1) (default, 0))
        size := H.size - 1 } : BinaryHeap α).size = H.size - 1 := rfl
    have h6 : ({ H with
        nodes := H.nodes.set 0 (H.nodes.getD (H.size - 1) (default, 0))
        size := H.size - 1 } : BinaryHeap α).nodes.length =
        H.nodes.length := by
      show (H.nodes.set 0 _).length = _
      rw [List.length_set]
    show (sift_down_fuel
        (({ H with
          nodes := H.nodes.set 0 (H.nodes.getD (H.size - 1) (default, 0))
          size := H.size - 1 } : BinaryHeap α).size + 1)
        ({ H with
          nodes := H.nodes.set 0 (H.nodes.getD (H.size - 1) (default, 0))
          size := H.size - 1 } : BinaryHeap α) 0).size ≤
      (sift_down_fuel
        (({ H with
          nodes := H.nodes.set 0 (H.nodes.getD (H.size - 1) (default, 0))
          size := H.size - 1 } : BinaryHeap α).size + 1)
        ({ H with
          nodes := H.nodes.set 0 (H.nodes.getD (H.size - 1) (default, 0))
          size := H.size - 1 } : BinaryHeap α) 0).nodes.length
    rw [h2, h4, h5, h6]
    omega

/-- In a max-heap the root key dominates every live key. -/
theorem max_heap_root_max (H : BinaryHeap α) (hheap : max_heap_prop H) :
    ∀ j, j < H.size → heap_key H j ≤ heap_key H 0 := by
  intro j
  induction j using Nat.strong_induction_on with
  | _ j ih =>
    intro hj
    rcases Nat.eq_zero_or_pos j with hj0 | hj0
    · rw [hj0]
    · have hpj : index_of_parent j < j := by unfold index_of_parent; omega
      exact le_trans (hheap j hj0 hj) (ih (index_of_parent j) hpj (by omega))

/-- Every heap reachable by pushes and pops from the empty priority queue
is a max-heap with its live region inside the backing array. -/
theorem heap_reachable_inv (H : BinaryHeap ℕ) (hr : HeapReachable H) :
    H.type = HEAP_MAX ∧ H.size ≤ H.nodes.length ∧ max_heap_prop H := by
  induction hr with
  | empty =>
    refine ⟨rfl, by simp [priority_queue_create, binary_heap_create], ?_⟩
    intro j hj0 hjs
    simp [priority_queue_create, binary_heap_create] at hjs
  | push H x k hr ih =>
    obtain ⟨ht, hsz, hheap⟩ := ih
    obtain ⟨h1, _, h3, h4⟩ := binary_heap_push_inv H x k ht hsz hheap
    exact ⟨h3, h4, h1⟩
  | pop H hr ih =>
    obtain ⟨ht, hsz, hheap⟩ := ih
    obtain ⟨h1, h2, h3, _⟩ := binary_heap_pop_inv H ht hsz hheap
    exact ⟨h3, h2, h1⟩

end HeapProofs

/-- C9 amended: on every heap state reachable from the empty priority
queue by pushes and pops, a pop returns the payload stored at the root,
whose priority is maximal among all stored elements.  (The FIFO half of
the claim is refuted separately: ties are broken by heap shape.) -/
theorem C9_amended_pop_returns_max (H : BinaryHeap ℕ)
    (hr : HeapReachable H) (h0 : 0 < H.size) :
    (binary_heap_pop H).1 = (H.nodes.getD 0 (default, 0)).1 ∧
    ∀ j, j < H.size → heap_key H j ≤ heap_key H 0 := by
  obtain ⟨ht, hsz, hheap⟩ := heap_reachable_inv H hr
  exact ⟨(binary_heap_pop_inv H ht hsz hheap).2.2.2 h0,
    max_heap_root_max H hheap⟩

/-- C9 amended witness: the pop-returns-max theorem instantiated on the
concrete reachable heap obtained by two pushes. -/
theorem C9_amended_pop_returns_max_witness :
    (binary_heap_pop
      (binary_heap_push
        (binary_heap_push (priority_queue_create ℕ) 7 (3 / 2)) 8 1)).1 =
      ((binary_heap_push
        (binary_heap_push (priority_queue_create ℕ) 7 (3 / 2)) 8
          1).nodes.getD 0 (default, 0)).1 ∧
    ∀ j, j < (binary_heap_push
        (binary_heap_push (priority_queue_create ℕ) 7 (3 / 2)) 8 1).size →
      heap_key (binary_heap_push
        (binary_heap_push (priority_queue_create ℕ) 7 (3 / 2)) 8 1) j ≤
      heap_key (binary_heap_push
        (binary_heap_push (priority_queue_create ℕ) 7 (3 / 2)) 8 1) 0 :=
  C9_amended_pop_returns_max _
    (HeapReachable.push _ 8 1
      (HeapReachable.push _ 7 (3 / 2) HeapReachable.empty))
    (by with_unfolding_all decide)

/-- C7 counterexample: on a decorator with overapproximated label set
`{0, 1}` of which only `0` is shared with `labels_a = {0}` (K = 2
labels, region `[0, 2]`, depth 1), the source's `compute_priority`
differs from the specified formula by the label term `1/2`: the source
reads the analysis scratch set `local_labels`, which the search never
populates (it starts empty and is only intersected), not the
decorator's own label set. -/
theorem C7_priority_label_term_always_zero :
    compute_priority [] [0] 2
        ⟨[⟨0, 2⟩], [DTNode.leaf [1]], [0, 1]⟩ ≠
      spec_priority [0] 2 ⟨[⟨0, 2⟩], [DTNode.leaf [1]], [0, 1]⟩ := by
  with_unfolding_all decide

/-- C7 amended: the priority the search actually assigns is
`-10^6 · volume(D) + depth(D)`: `compute_priority` uses the scratch set
`local_labels` for the label term, and that set is empty throughout the
search (second conjunct: intersecting the empty set with `labels_a`
leaves it empty), so the label term always vanishes. -/
theorem C7_amended_priority (labels_a : List ℕ) (K : ℕ)
    (d : HyperrectangleDecorator) :
    compute_priority [] labels_a K d =
      (- 1000000) * hyperrectangle_volume d.x +
        (decorator_get_depth d : ℚ) ∧
    set_intersection [] labels_a = [] := by
  refine ⟨?_, rfl⟩
  show (- 1000000) * hyperrectangle_volume d.x
      + 1 * (decorator_get_depth d : ℚ)
      + 1 * (((0 : ℕ) : ℚ) - ((0 : ℕ) : ℚ)) / (K : ℚ) = _
  push_cast
  ring

/-- C1: soundness of the STABLE verdict — refuted (code bug).  The
forest is a single tree under MAX voting: `split(x0 ≤ 0)` with left
leaf voting label 0, and right child `split(x0 ≤ 5·10⁻¹³)` whose left
leaf votes label 1 and right leaf votes label 0.  On the region
`H = [-1, 7.5·10⁻¹³]`, the verifier classifies the midpoint as
`labels_a = {0}` and returns STABILITY_TRUE; yet the point
`x0 = 2.5·10⁻¹³` lies in `H` and classifies as `{1} ≠ {0}`.  Cause:
when `refine` splits a region at a threshold `k`, the right child's
lowerbound is clamped to `k + EPSILON` (EPSILON = 10⁻¹²), so the points
of `H` with coordinate in `(k, min(u, k + EPSILON))` — here
`(0, 7.5·10⁻¹³]`, which reach the label-1 leaf — are dropped from the
analysis: the clamped right region `[10⁻¹², 7.5·10⁻¹³]` is bottom and
routes past the label-1 leaf, so that leaf is never assessed. -/
theorem C1_stable_verdict_unsound :
    (forest_hyperrectangle_is_stable (fun q => q)
        ⟨[DTNode.split 0 0 (DTNode.leaf [10, 0])
            (DTNode.split 0 (5 / 10 ^ 13) (DTNode.leaf [0, 10])
              (DTNode.leaf [10, 0]))], FOREST_VOTING_MAX, 2⟩
        [⟨-1, 75 / 10 ^ 14⟩] [0] 100 50).map StabilityStatus.result =
      some STABILITY_TRUE ∧
    (forest_hyperrectangle_is_stable (fun q => q)
        ⟨[DTNode.split 0 0 (DTNode.leaf [10, 0])
            (DTNode.split 0 (5 / 10 ^ 13) (DTNode.leaf [0, 10])
              (DTNode.leaf [10, 0]))], FOREST_VOTING_MAX, 2⟩
        [⟨-1, 75 / 10 ^ 14⟩] [0] 100 50).map StabilityStatus.labels_a =
      some [0] ∧
    hyperrectangle_mem (fun _ => 25 / 10 ^ 14) [⟨-1, 75 / 10 ^ 14⟩] ∧
    forest_classify
        ⟨[DTNode.split 0 0 (DTNode.leaf [10, 0])
            (DTNode.split 0 (5 / 10 ^ 13) (DTNode.leaf [0, 10])
              (DTNode.leaf [10, 0]))], FOREST_VOTING_MAX, 2⟩
        (fun _ => 25 / 10 ^ 14) = [1] := by
  refine ⟨?_, ?_, ?_, ?_⟩
  · with_unfolding_all decide
  · with_unfolding_all decide
  · intro i hi
    have h0 : i = 0 := by simpa [Nat.lt_one_iff] using hi
    subst h0
    exact ⟨by with_unfolding_all decide, by with_unfolding_all decide⟩
  · with_unfolding_all decide

end Silva
